import Mathlib

/-!
Verification of the day17 constrained shortest-path search
(src/day17/src/{board.rs, constraints.rs, pathfinding.rs}).

The Rust code is shallowly embedded: `usize`/`u32` become `Nat` (the code
only subtracts where the value is known positive, except where noted),
the `HashSet` of neighbours becomes a `List` in the construction order of
the source, and the keyed priority queue (`PriorityQueue<PathStep,
Reverse<u32>>`) becomes a cost-sorted duplicate-free list.  The panic
`expect("No path exists!")` on popping an empty queue is embedded as the
distinguished result `SearchResult.noPath`, and the loop takes explicit
fuel; `SearchResult.outOfFuel` marks exhaustion of the fuel only.
-/

namespace Day17

/-- Facing direction (board.rs, enum Direction). -/
inductive Direction where
| up
| down
| left
| right
deriving DecidableEq, Repr

/-- Constraints on the mover on the board (constraints.rs).  The Rust
struct has public fields and no constructor-time validation. -/
structure Constraints where
  max_straight_line : Nat
  min_straight_line : Nat
deriving DecidableEq, Repr

/-- The part-1 profile from constraints.rs. -/
def CONSTRAINTS_PART_1 : Constraints := ⟨3, 0⟩

/-- The part-2 profile from constraints.rs. -/
def CONSTRAINTS_PART_2 : Constraints := ⟨10, 4⟩

/-- A state the mover can be in (board.rs, struct State). -/
structure State where
  row : Nat
  col : Nat
  facing : Direction
  must_turn_in : Nat
  can_turn_in : Nat
deriving DecidableEq, Repr

/-- A 2D array of tiles (board.rs, struct Board). -/
structure Board where
  nb_rows : Nat
  nb_cols : Nat
  tiles : List (List Nat)
  constraints : Constraints
deriving DecidableEq, Repr

/-- Board::from.  The Rust panics on an empty grid
(`tiles.first().expect("Empty grid")`); the panic is embedded as `none`. -/
def Board.fromTiles (tiles : List (List Nat)) (constraints : Constraints) :
    Option Board :=
  match tiles.head? with
  | none => none
  | some firstRow => some ⟨tiles.length, firstRow.length, tiles, constraints⟩

/-- Indexing `self.tiles[row][col]`.  The Rust indexing panics out of
bounds; all uses in the source are in bounds on rectangular grids, and the
embedding totalises with a default of 0. -/
def Board.tileAt (b : Board) (row col : Nat) : Nat :=
  ((b.tiles.getD row []).getD col 0)

/-- Board::get_neighbour_tile: the neighbouring tile in a direction, if it
exists.  In the Rust, `nb_rows` and `nb_cols` are at least 1 for every
board built by Board::from, so the subtractions do not underflow and Nat
subtraction is exact. -/
def Board.get_neighbour_tile (b : Board) (row col : Nat) (direction : Direction) :
    Option (Nat × Nat) :=
  match direction with
  | .up => if row > 0 then some (row - 1, col) else none
  | .down => if row < b.nb_rows - 1 then some (row + 1, col) else none
  | .left => if col > 0 then some (row, col - 1) else none
  | .right => if col < b.nb_cols - 1 then some (row, col + 1) else none

/-- Board::add_neighbour_tile, returning the candidate instead of
inserting into a mutable set: the caller appends the result. -/
def Board.add_neighbour_tile (b : Board) (from_row from_col : Nat)
    (facing : Direction) (must_turn_in can_turn_in : Nat) :
    Option (State × Nat) :=
  match b.get_neighbour_tile from_row from_col facing with
  | none => none
  | some (row, col) =>
    some (⟨row, col, facing, must_turn_in, can_turn_in⟩, b.tileAt row col)

/-- The two directions perpendicular to a facing, in the order of the
match in Board::get_neighbours. -/
def turnDirections (facing : Direction) : List Direction :=
  match facing with
  | .up | .down => [.left, .right]
  | .left | .right => [.up, .down]

/-- Board::get_neighbours: the states reachable after one step and their
costs.  The Rust collects into a HashSet; the embedding keeps the
construction order (turn candidates first, then the straight
continuation).  The Rust computes `max_straight_line - 1` with
non-saturating usize subtraction (requiring max_straight_line ≥ 1 to
avoid underflow) and `saturating_sub(1)` elsewhere; Nat subtraction is
used for both, exact for the former whenever max_straight_line ≥ 1. -/
def Board.get_neighbours (b : Board) (start : State) : List (State × Nat) :=
  (if start.can_turn_in = 0 then
    (turnDirections start.facing).filterMap fun new_facing =>
      b.add_neighbour_tile start.row start.col new_facing
        (b.constraints.max_straight_line - 1)
        (b.constraints.min_straight_line - 1)
  else []) ++
  (if start.must_turn_in > 0 then
    (b.add_neighbour_tile start.row start.col start.facing
      (start.must_turn_in - 1)
      (start.can_turn_in - 1)).toList
  else [])

/-- A step on a path through the board (pathfinding.rs, struct PathStep). -/
structure PathStep where
  state : State
  cost_to : Nat
deriving DecidableEq, Repr

/-- Insertion into a cost-sorted list, after any entries of equal cost. -/
def insertByCost (step : PathStep) : List PathStep → List PathStep
  | [] => [step]
  | q :: rest =>
    if step.cost_to < q.cost_to then step :: q :: rest
    else q :: insertByCost step rest

/-- PathQueue::push.  The Rust PriorityQueue is keyed on the whole
PathStep: pushing an already-present step with its (identical) priority
leaves the queue unchanged.  The queue is embedded as a cost-sorted
duplicate-free list whose head is a least-cost entry; which of several
equal-cost entries is popped first is arbitrary in the Rust (hash order)
and fixed here. -/
def PathQueue.push (q : List PathStep) (step : PathStep) : List PathStep :=
  if step ∈ q then q else insertByCost step q

/-- Result of find_path.  `noPath` embeds the Rust panic
`expect("No path exists!")` raised by PathQueue::pop on an empty queue;
`outOfFuel` only marks exhaustion of the explicit fuel. -/
inductive SearchResult where
| found (cost : Nat)
| noPath
| outOfFuel
deriving DecidableEq, Repr

/-- One expansion: insert the popped state into the closed set and push
every not-closed neighbour (the loop body of find_path after the goal
test). -/
def expandStep (b : Board) (step : PathStep) (rest : List PathStep)
    (closed : List State) : List PathStep × List State :=
  let closed' := step.state :: closed
  ((b.get_neighbours step.state).foldl
    (fun q nb =>
      if nb.1 ∈ closed' then q
      else PathQueue.push q ⟨nb.1, step.cost_to + nb.2⟩)
    rest,
   closed')

/-- The Dijkstra loop of find_path, with explicit fuel. -/
def find_path_loop (b : Board) (goal : Nat × Nat) :
    Nat → List PathStep → List State → SearchResult
  | 0, _, _ => .outOfFuel
  | _ + 1, [], _ => .noPath
  | fuel + 1, step :: rest, closed =>
    if (step.state.row, step.state.col) = goal ∧ step.state.can_turn_in = 0 then
      .found step.cost_to
    else
      let next := expandStep b step rest closed
      find_path_loop b goal fuel next.1 next.2

/-- get_start_steps: one zero-cost step per facing, seeded with the full
straight-line allowance. -/
def get_start_steps (start : Nat × Nat) (constraints : Constraints) :
    List PathStep :=
  [Direction.up, Direction.down, Direction.left, Direction.right].map
    fun facing =>
      { state := ⟨start.1, start.2, facing, constraints.max_straight_line,
                  constraints.min_straight_line⟩
        cost_to := 0 }

/-- find_path: least cost of a path from start to goal, with fuel. -/
def find_path (fuel : Nat) (b : Board) (start goal : Nat × Nat) : SearchResult :=
  find_path_loop b goal fuel
    ((get_start_steps start b.constraints).foldl PathQueue.push [])
    []

/-! Semantic layer: transitions, reachability, legal-path costs. -/

/-- The facing opposite to a given facing (reversal; never generated by
the neighbour enumeration). -/
def Direction.opposite : Direction → Direction
  | .up => .down
  | .down => .up
  | .left => .right
  | .right => .left

/-- The initial seeding states at the source cell, one per facing. -/
def startStates (constraints : Constraints) (start : Nat × Nat) : List State :=
  (get_start_steps start constraints).map PathStep.state

/-- The goal-acceptance condition of the find_path loop: at the target
cell with the minimum straight-run obligation satisfied. -/
def GoalState (goal : Nat × Nat) (s : State) : Prop :=
  (s.row, s.col) = goal ∧ s.can_turn_in = 0

instance (goal : Nat × Nat) (s : State) : Decidable (GoalState goal s) := by
  unfold GoalState
  infer_instance

/-- Reachability from a seeding state, with the accumulated entry cost of
a witnessing sequence of legal transitions (the source cell's own entry
cost is not counted; each entered cell's cost is added once). -/
inductive SeedReach (b : Board) (start : Nat × Nat) : State → Nat → Prop where
| seed {s : State} : s ∈ startStates b.constraints start → SeedReach b start s 0
| step {s t : State} {c w : Nat} : SeedReach b start s c →
    (t, w) ∈ b.get_neighbours s → SeedReach b start t (c + w)

/-- Costs of legal transition sequences from a seeding state to an
acceptable goal state. -/
def goalCosts (b : Board) (start goal : Nat × Nat) : Set Nat :=
  {c | ∃ g : State, SeedReach b start g c ∧ GoalState goal g}

/-- States reachable by at least one transition from the seeding states. -/
inductive ReachableFrom (b : Board) (start : Nat × Nat) : State → Prop where
| head {s₀ s : State} {w : Nat} : s₀ ∈ startStates b.constraints start →
    (s, w) ∈ b.get_neighbours s₀ → ReachableFrom b start s
| tail {s t : State} {w : Nat} : ReachableFrom b start s →
    (t, w) ∈ b.get_neighbours s → ReachableFrom b start t

/-- States reachable by zero or more transitions (the seeding states
included). -/
inductive ReachState (b : Board) (start : Nat × Nat) : State → Prop where
| start {s : State} : s ∈ startStates b.constraints start → ReachState b start s
| step {s t : State} {w : Nat} : ReachState b start s →
    (t, w) ∈ b.get_neighbours s → ReachState b start t

/-- The turn branch of Board::get_neighbours: in-bounds turn candidates. -/
def turnCandidates (b : Board) (s : State) : List (State × Nat) :=
  (turnDirections s.facing).filterMap fun new_facing =>
    b.add_neighbour_tile s.row s.col new_facing
      (b.constraints.max_straight_line - 1)
      (b.constraints.min_straight_line - 1)

/-- The straight branch of Board::get_neighbours: the in-bounds straight
continuation, if any. -/
def straightCandidate (b : Board) (s : State) : Option (State × Nat) :=
  b.add_neighbour_tile s.row s.col s.facing
    (s.must_turn_in - 1) (s.can_turn_in - 1)

/-- The 2-by-2 all-ones board of the test_tiny test, part-1 constraints
(equal to Board.fromTiles [[1,1],[1,1]] CONSTRAINTS_PART_1). -/
def tinyBoard : Board := ⟨2, 2, [[1, 1], [1, 1]], CONSTRAINTS_PART_1⟩

/-- A 1-by-5 all-ones corridor with the part-2 (clumsy) constraints; with
target (0, 2) no acceptable goal state is reachable. -/
def corridorBoard : Board := ⟨1, 5, [[1, 1, 1, 1, 1]], CONSTRAINTS_PART_2⟩

/-- An invalid configuration: min_straight_line exceeds max_straight_line. -/
def invalidConstraints : Constraints := ⟨1, 5⟩

/-- A 2-by-2 all-ones board carrying the invalid configuration. -/
def invalidBoard : Board := ⟨2, 2, [[1, 1], [1, 1]], invalidConstraints⟩

/-- Sortedness of the queue embedding: costs are non-decreasing, so the
head is a least-cost entry. -/
def QueueSorted (q : List PathStep) : Prop :=
  q.Pairwise fun a b => a.cost_to ≤ b.cost_to

/-!
Spec-model for the refinement claim: an unconstrained Dijkstra search
augmented only with the max_straight_line bound on consecutive straight
moves.  These definitions follow the spec's words, not the source: the
state drops the can_turn_in counter, turning is always permitted, and
the goal condition is position only.  They exist solely to be compared
with find_path.
-/

/-- Search state of the max-only model: position, facing and the
remaining straight-run budget; no minimum-run counter. -/
structure FreeState where
  row : Nat
  col : Nat
  facing : Direction
  must_turn_in : Nat
deriving DecidableEq, Repr

/-- A queue entry of the max-only model. -/
structure FreeStep where
  state : FreeState
  cost_to : Nat
deriving DecidableEq, Repr

/-- Interpretation of a max-only state as a full search state: the
minimum-run counter is identically zero. -/
def embedFree (s : FreeState) : State :=
  ⟨s.row, s.col, s.facing, s.must_turn_in, 0⟩

/-- Interpretation of a max-only queue entry. -/
def embedFreeStep (p : FreeStep) : PathStep :=
  ⟨embedFree p.state, p.cost_to⟩

/-- In-bounds candidate production of the max-only model. -/
def maxOnly_add (b : Board) (from_row from_col : Nat) (facing : Direction)
    (must_turn_in : Nat) : Option (FreeState × Nat) :=
  match b.get_neighbour_tile from_row from_col facing with
  | none => none
  | some (row, col) =>
    some (⟨row, col, facing, must_turn_in⟩, b.tileAt row col)

/-- Neighbour enumeration of the max-only model: the two perpendicular
turns are always legal and reset the straight-run budget; continuing
straight is legal while the budget is positive; out-of-bounds candidates
are dropped. -/
def maxOnly_neighbours (b : Board) (s : FreeState) : List (FreeState × Nat) :=
  ((turnDirections s.facing).filterMap fun new_facing =>
    maxOnly_add b s.row s.col new_facing (b.constraints.max_straight_line - 1)) ++
  (if 0 < s.must_turn_in then
    (maxOnly_add b s.row s.col s.facing (s.must_turn_in - 1)).toList
  else [])

/-- Cost-sorted insertion for the max-only queue. -/
def insertFreeByCost (step : FreeStep) : List FreeStep → List FreeStep
  | [] => [step]
  | q :: rest =>
    if step.cost_to < q.cost_to then step :: q :: rest
    else q :: insertFreeByCost step rest

/-- Deduplicating push for the max-only queue. -/
def FreeQueue.push (q : List FreeStep) (step : FreeStep) : List FreeStep :=
  if step ∈ q then q else insertFreeByCost step q

/-- One expansion of the max-only search. -/
def maxOnly_expand (b : Board) (step : FreeStep) (rest : List FreeStep)
    (closed : List FreeState) : List FreeStep × List FreeState :=
  let closed' := step.state :: closed
  ((maxOnly_neighbours b step.state).foldl
    (fun q nb =>
      if nb.1 ∈ closed' then q
      else FreeQueue.push q ⟨nb.1, step.cost_to + nb.2⟩)
    rest,
   closed')

/-- The Dijkstra loop of the max-only search; the goal condition is the
position alone. -/
def maxOnly_loop (b : Board) (goal : Nat × Nat) :
    Nat → List FreeStep → List FreeState → SearchResult
  | 0, _, _ => .outOfFuel
  | _ + 1, [], _ => .noPath
  | fuel + 1, step :: rest, closed =>
    if (step.state.row, step.state.col) = goal then
      .found step.cost_to
    else
      let next := maxOnly_expand b step rest closed
      maxOnly_loop b goal fuel next.1 next.2

/-- Seeding of the max-only search: one zero-cost entry per facing with
the full straight-run budget. -/
def maxOnly_start_steps (start : Nat × Nat) (constraints : Constraints) :
    List FreeStep :=
  [Direction.up, Direction.down, Direction.left, Direction.right].map
    fun facing =>
      { state := ⟨start.1, start.2, facing, constraints.max_straight_line⟩
        cost_to := 0 }

/-- The max-only search driver. -/
def maxOnly_find_path (fuel : Nat) (b : Board) (start goal : Nat × Nat) :
    SearchResult :=
  maxOnly_loop b goal fuel
    ((maxOnly_start_steps start b.constraints).foldl FreeQueue.push [])
    []

/-!
Machinery for the full correctness of find_path: the Dijkstra loop
invariant, a finite universe of states, simple chains bounding queue
costs, and a decreasing search measure.
-/

/-- The Dijkstra loop invariant tying the queue and closed set to the
legal-transition semantics.  `settled` states that every closed state
was finalised at its minimum seed distance and that each of its
neighbours is closed or still represented in the queue at no more than
the relaxed cost. -/
structure LoopInv (b : Board) (start goal : Nat × Nat)
    (queue : List PathStep) (closed : List State) : Prop where
  sorted : QueueSorted queue
  nodup : queue.Nodup
  reach : ∀ p ∈ queue, SeedReach b start p.state p.cost_to
  notGoal : ∀ s ∈ closed, ¬ GoalState goal s
  seeds : ∀ p ∈ get_start_steps start b.constraints, p.state ∈ closed ∨ p ∈ queue
  settled : ∀ u ∈ closed, ∃ cu : Nat, SeedReach b start u cu ∧
    (∀ d, SeedReach b start u d → cu ≤ d) ∧
    ∀ t w, (t, w) ∈ b.get_neighbours u →
      t ∈ closed ∨ ∃ ct, ct ≤ cu + w ∧ (⟨t, ct⟩ : PathStep) ∈ queue

/-- Bounds making a state a member of the finite search universe. -/
def InUniverse (b : Board) (s : State) : Prop :=
  s.row < b.nb_rows ∧ s.col < b.nb_cols ∧
  s.must_turn_in ≤ b.constraints.max_straight_line ∧
  s.can_turn_in ≤ b.constraints.min_straight_line

instance : Fintype Direction where
  elems := ⟨[Direction.up, Direction.down, Direction.left, Direction.right], by decide⟩
  complete := fun x => by cases x <;> decide

/-- The finite universe of states the search can ever enqueue. -/
def stateUniverse (b : Board) : Finset State :=
  ((Finset.range b.nb_rows) ×ˢ (Finset.range b.nb_cols) ×ˢ
    (Finset.univ : Finset Direction) ×ˢ
    (Finset.range (b.constraints.max_straight_line + 1)) ×ˢ
    (Finset.range (b.constraints.min_straight_line + 1))).image
    fun q => State.mk q.1 q.2.1 q.2.2.1 q.2.2.2.1 q.2.2.2.2

/-- The largest tile value of the board. -/
def Board.maxTile (b : Board) : Nat :=
  (b.tiles.map fun row => row.foldr max 0).foldr max 0

/-- Upper bound on every accumulated cost the search can enqueue. -/
def costBound (b : Board) : Nat :=
  b.maxTile * (stateUniverse b).card

/-- A simple chain: a legal transition sequence from a seeding state
whose intermediate states are pairwise distinct and all closed.  Every
queue entry is realised by one; its distinctness bounds the cost. -/
inductive SChain (b : Board) (start : Nat × Nat) (closed : List State) :
    State → Nat → List State → Prop where
| seed {s : State} : s ∈ startStates b.constraints start →
    SChain b start closed s 0 [s]
| step {s t : State} {c w : Nat} {L : List State} :
    SChain b start closed s c L → s ∈ closed →
    (t, w) ∈ b.get_neighbours s → t ∉ L →
    SChain b start closed t (c + w) (t :: L)

/-- The termination invariant: every queue entry is realised by a simple
chain. -/
structure SizeInv (b : Board) (start : Nat × Nat)
    (queue : List PathStep) (closed : List State) : Prop where
  chains : ∀ p ∈ queue, ∃ L, SChain b start closed p.state p.cost_to L

/-- The queue as a finite set of (state, cost) pairs. -/
def queueSteps (queue : List PathStep) : Finset (State × Nat) :=
  (queue.map fun p => (p.state, p.cost_to)).toFinset

/-- The (state, cost) pairs still available for future pushes. -/
def availSteps (b : Board) (closed : List State) : Finset (State × Nat) :=
  (stateUniverse b \ closed.toFinset) ×ˢ Finset.range (costBound b + 1)

/-- The decreasing measure of the search loop. -/
def searchMeasure (b : Board) (queue : List PathStep)
    (closed : List State) : Nat :=
  (availSteps b closed \ queueSteps queue).card + queue.length

/-- The tiny board with the (1, 1) tile raised from 1 to 5. -/
def tinyBoardRaised : Board := ⟨2, 2, [[1, 1], [1, 5]], CONSTRAINTS_PART_1⟩

/-! Basic lemmas about the neighbour enumeration. -/

theorem add_neighbour_tile_eq_some {b : Board} {r c : Nat} {f : Direction}
    {m k : Nat} {p : State × Nat} :
    b.add_neighbour_tile r c f m k = some p ↔
      ∃ rc : Nat × Nat, b.get_neighbour_tile r c f = some rc ∧
        p = (⟨rc.1, rc.2, f, m, k⟩, b.tileAt rc.1 rc.2) := by
  unfold Board.add_neighbour_tile
  cases h : b.get_neighbour_tile r c f with
  | none => simp
  | some rc => cases rc; simp [eq_comm]

theorem get_neighbours_eq (b : Board) (s : State) :
    b.get_neighbours s =
      (if s.can_turn_in = 0 then turnCandidates b s else []) ++
      (if 0 < s.must_turn_in then (straightCandidate b s).toList else []) := by
  rfl

theorem mem_get_neighbours {b : Board} {s : State} {p : State × Nat} :
    p ∈ b.get_neighbours s ↔
      (s.can_turn_in = 0 ∧ p ∈ turnCandidates b s) ∨
      (0 < s.must_turn_in ∧ straightCandidate b s = some p) := by
  rw [get_neighbours_eq]
  by_cases hc : s.can_turn_in = 0 <;> by_cases hm : 0 < s.must_turn_in <;>
    simp [hc, hm, Option.mem_toList]

theorem mem_turnCandidates {b : Board} {s : State} {p : State × Nat} :
    p ∈ turnCandidates b s ↔
      ∃ d ∈ turnDirections s.facing,
        b.add_neighbour_tile s.row s.col d
          (b.constraints.max_straight_line - 1)
          (b.constraints.min_straight_line - 1) = some p := by
  unfold turnCandidates
  simp [List.mem_filterMap]

/-- Fields of any neighbour produced by the turn branch. -/
theorem turnCandidates_fields {b : Board} {s t : State} {w : Nat}
    (hp : (t, w) ∈ turnCandidates b s) :
    t.facing ∈ turnDirections s.facing ∧
    t.must_turn_in = b.constraints.max_straight_line - 1 ∧
    t.can_turn_in = b.constraints.min_straight_line - 1 ∧
    w = b.tileAt t.row t.col := by
  rcases mem_turnCandidates.mp hp with ⟨d, hd, hsome⟩
  rcases add_neighbour_tile_eq_some.mp hsome with ⟨rc, _, heq⟩
  injection heq with h1 h2
  subst h1
  subst h2
  exact ⟨hd, rfl, rfl, rfl⟩

/-- Fields of the straight continuation. -/
theorem straightCandidate_fields {b : Board} {s t : State} {w : Nat}
    (hp : straightCandidate b s = some (t, w)) :
    t.facing = s.facing ∧
    t.must_turn_in = s.must_turn_in - 1 ∧
    t.can_turn_in = s.can_turn_in - 1 ∧
    w = b.tileAt t.row t.col := by
  rcases add_neighbour_tile_eq_some.mp hp with ⟨rc, _, heq⟩
  injection heq with h1 h2
  subst h1
  subst h2
  exact ⟨rfl, rfl, rfl, rfl⟩

/-- Any generated neighbour state sits on a tile that is in bounds in its
facing from the popped state. -/
theorem mem_get_neighbours_inbounds {b : Board} {s : State} {p : State × Nat}
    (hp : p ∈ b.get_neighbours s) :
    ∃ rc : Nat × Nat, b.get_neighbour_tile s.row s.col p.1.facing = some rc ∧
      p.1.row = rc.1 ∧ p.1.col = rc.2 := by
  rcases mem_get_neighbours.mp hp with ⟨_, hmem⟩ | ⟨_, hmem⟩
  · rcases mem_turnCandidates.mp hmem with ⟨d, _, hsome⟩
    rcases add_neighbour_tile_eq_some.mp hsome with ⟨rc, hrc, rfl⟩
    exact ⟨rc, hrc, rfl, rfl⟩
  · rcases add_neighbour_tile_eq_some.mp hmem with ⟨rc, hrc, rfl⟩
    exact ⟨rc, hrc, rfl, rfl⟩

theorem turnDirections_perpendicular {f d : Direction}
    (hd : d ∈ turnDirections f) : d ≠ f ∧ d ≠ f.opposite := by
  cases f <;> simp [turnDirections] at hd <;>
    rcases hd with rfl | rfl <;> exact ⟨by simp [Direction.opposite], by simp [Direction.opposite]⟩

/-! Claim C3: goal acceptance condition of the search loop. -/

/-- C3: the find_path loop accepts a popped state as the solution
endpoint, returning its accumulated cost, exactly when the state's
position equals the target cell and its can_turn_in counter is 0; when
the popped state is at the target with can_turn_in > 0 it is not
accepted, and the loop continues with the expansion of that state. -/
theorem find_path_goal_acceptance (b : Board) (goal : Nat × Nat) (fuel : Nat)
    (step : PathStep) (rest : List PathStep) (closed : List State) :
    (GoalState goal step.state →
      find_path_loop b goal (fuel + 1) (step :: rest) closed = .found step.cost_to) ∧
    (¬ GoalState goal step.state →
      find_path_loop b goal (fuel + 1) (step :: rest) closed =
        find_path_loop b goal fuel
          (expandStep b step rest closed).1 (expandStep b step rest closed).2) ∧
    ((step.state.row, step.state.col) = goal → 0 < step.state.can_turn_in →
      find_path_loop b goal (fuel + 1) (step :: rest) closed =
        find_path_loop b goal fuel
          (expandStep b step rest closed).1 (expandStep b step rest closed).2) := by
  refine ⟨fun h => ?_, fun h => ?_, fun hpos hcan => ?_⟩
  · unfold GoalState at h
    rw [find_path_loop, if_pos h]
  · unfold GoalState at h
    rw [find_path_loop, if_neg h]
  · rw [find_path_loop, if_neg ?_]
    rintro ⟨-, hzero⟩
    omega

/-- Witness for C3 at a concrete input: a popped step at the target with
can_turn_in = 0 is returned with its accumulated cost. -/
theorem find_path_goal_acceptance_witness :
    GoalState (1, 1) (⟨1, 1, Direction.down, 2, 0⟩ : State) ∧
    find_path_loop tinyBoard (1, 1) 5
      [⟨⟨1, 1, Direction.down, 2, 0⟩, 7⟩] [] = .found 7 :=
  ⟨by decide,
   (find_path_goal_acceptance tinyBoard (1, 1) 4
     ⟨⟨1, 1, Direction.down, 2, 0⟩, 7⟩ [] []).1 (by decide)⟩

/-! Claim C4: case analysis of the neighbour enumeration.  The claim as
stated fails on states with can_turn_in > 0 and must_turn_in = 0, where
the code yields no candidate at all (turning is blocked by the
can_turn_in counter, continuing straight by the must_turn_in counter);
the amended case analysis adds that fourth case. -/

/-- C4 counterexample: a state with can_turn_in > 0 (and must_turn_in =
0) for which the straight tile is in bounds, yet the neighbour
enumeration yields no candidate rather than the claimed one straight
continuation. -/
theorem get_neighbours_can_turn_pos_counterexample :
    0 < (⟨0, 0, Direction.right, 0, 1⟩ : State).can_turn_in ∧
    tinyBoard.get_neighbour_tile 0 0 Direction.right = some (0, 1) ∧
    tinyBoard.get_neighbours ⟨0, 0, Direction.right, 0, 1⟩ = [] := by
  decide

/-- C4 amended: the neighbour enumeration of a state with can_turn_in = 0
and must_turn_in > 0 is the in-bounds turn candidates followed by the
in-bounds straight continuation (at most three candidates); with
can_turn_in = 0 and must_turn_in = 0 it is exactly the in-bounds turn
candidates (at most two); with can_turn_in > 0 and must_turn_in > 0 it
is exactly the in-bounds straight continuation (at most one; turning is
illegal); with can_turn_in > 0 and must_turn_in = 0 it is empty; and
every candidate produced sits on an in-bounds tile, out-of-bounds
candidates being silently dropped rather than an error. -/
theorem get_neighbours_cases (b : Board) (s : State) :
    (s.can_turn_in = 0 → 0 < s.must_turn_in →
      b.get_neighbours s = turnCandidates b s ++ (straightCandidate b s).toList ∧
      (b.get_neighbours s).length ≤ 3) ∧
    (s.can_turn_in = 0 → s.must_turn_in = 0 →
      b.get_neighbours s = turnCandidates b s ∧
      (b.get_neighbours s).length ≤ 2) ∧
    (0 < s.can_turn_in → 0 < s.must_turn_in →
      b.get_neighbours s = (straightCandidate b s).toList ∧
      (b.get_neighbours s).length ≤ 1) ∧
    (0 < s.can_turn_in → s.must_turn_in = 0 → b.get_neighbours s = []) ∧
    (∀ p ∈ b.get_neighbours s,
      b.get_neighbour_tile s.row s.col p.1.facing ≠ none) := by
  have hturn : (turnCandidates b s).length ≤ 2 := by
    have := List.length_filterMap_le
      (fun new_facing => b.add_neighbour_tile s.row s.col new_facing
        (b.constraints.max_straight_line - 1)
        (b.constraints.min_straight_line - 1))
      (turnDirections s.facing)
    have hlen : (turnDirections s.facing).length = 2 := by
      cases s.facing <;> rfl
    unfold turnCandidates
    omega
  have hstraight : (straightCandidate b s).toList.length ≤ 1 := by
    cases straightCandidate b s <;> simp
  refine ⟨fun hc hm => ?_, fun hc hm => ?_, fun hc hm => ?_, fun hc hm => ?_,
    fun p hp => ?_⟩
  · rw [get_neighbours_eq, if_pos hc, if_pos hm]
    refine ⟨rfl, ?_⟩
    rw [List.length_append]
    omega
  · rw [get_neighbours_eq, if_pos hc, if_neg (by omega)]
    exact ⟨List.append_nil _, by rw [List.append_nil]; omega⟩
  · rw [get_neighbours_eq, if_neg (by omega), if_pos hm]
    exact ⟨rfl, by simpa using hstraight⟩
  · rw [get_neighbours_eq, if_neg (by omega), if_neg (by omega)]
    rfl
  · rcases mem_get_neighbours_inbounds hp with ⟨rc, hrc, -, -⟩
    simp [hrc]

/-- Witness for the amended C4 at a concrete input: the two-branch case
on a mid-board state. -/
theorem mem_startStates {c : Constraints} {start : Nat × Nat} {s : State} :
    s ∈ startStates c start ↔
      ∃ d : Direction,
        s = ⟨start.1, start.2, d, c.max_straight_line, c.min_straight_line⟩ := by
  unfold startStates get_start_steps
  simp [eq_comm]
  constructor
  · rintro (h | h | h | h) <;> exact ⟨_, h⟩
  · rintro ⟨d, rfl⟩
    cases d
    · exact Or.inl rfl
    · exact Or.inr (Or.inl rfl)
    · exact Or.inr (Or.inr (Or.inl rfl))
    · exact Or.inr (Or.inr (Or.inr rfl))

/-- Counter bounds propagate through one transition: from a state whose
counters are at most the configured values, every neighbour has
must_turn_in at most max_straight_line - 1 and can_turn_in at most
min_straight_line - 1. -/
theorem neighbour_counter_bounds {b : Board} {s : State} {t : State} {w : Nat}
    (hmust : s.must_turn_in ≤ b.constraints.max_straight_line)
    (hcan : s.can_turn_in ≤ b.constraints.min_straight_line)
    (ht : (t, w) ∈ b.get_neighbours s) :
    t.must_turn_in ≤ b.constraints.max_straight_line - 1 ∧
    t.can_turn_in ≤ b.constraints.min_straight_line - 1 := by
  rcases mem_get_neighbours.mp ht with ⟨-, hmem⟩ | ⟨hpos, hmem⟩
  · rcases turnCandidates_fields hmem with ⟨-, h1, h2, -⟩
    omega
  · rcases straightCandidate_fields hmem with ⟨-, h1, h2, -⟩
    omega

/-! Claim C5: fields of the in-bounds turn candidates. -/

/-- C5: under the configured validity invariant (min_straight_line ≤
max_straight_line, max_straight_line ≥ 1), every in-bounds turn
candidate produced for a state with can_turn_in = 0 belongs to the
neighbour enumeration, has a facing perpendicular to the current facing
(never the same, never its reverse), must_turn_in = max_straight_line -
1, can_turn_in = min(min_straight_line, max_straight_line + 1) - 1
saturating at 0 (Nat subtraction), and cost equal to the entered cell's
tile value. -/
theorem turn_candidate_fields (b : Board) (s : State)
    (hvalid : b.constraints.min_straight_line ≤ b.constraints.max_straight_line)
    (_hmax : 1 ≤ b.constraints.max_straight_line)
    (hcan : s.can_turn_in = 0) :
    ∀ p ∈ turnCandidates b s,
      p ∈ b.get_neighbours s ∧
      (p.1.facing ≠ s.facing ∧ p.1.facing ≠ s.facing.opposite) ∧
      p.1.must_turn_in = b.constraints.max_straight_line - 1 ∧
      p.1.can_turn_in =
        min b.constraints.min_straight_line (b.constraints.max_straight_line + 1) - 1 ∧
      p.2 = b.tileAt p.1.row p.1.col := by
  intro p hp
  obtain ⟨t, w⟩ := p
  rcases turnCandidates_fields hp with ⟨hperp, h1, h2, h3⟩
  refine ⟨mem_get_neighbours.mpr (Or.inl ⟨hcan, hp⟩),
    turnDirections_perpendicular hperp, h1, ?_, h3⟩
  rw [h2, Nat.min_eq_left (by omega)]

/-- Witness for C5 at a concrete input: the single in-bounds turn
candidate of a right-facing state at the corner of the tiny board. -/
theorem turn_candidate_fields_witness :
    (tinyBoard.constraints.min_straight_line ≤
        tinyBoard.constraints.max_straight_line ∧
      1 ≤ tinyBoard.constraints.max_straight_line ∧
      (⟨0, 0, Direction.right, 2, 0⟩ : State).can_turn_in = 0) ∧
    ((⟨⟨1, 0, Direction.down, 2, 0⟩, 1⟩ : State × Nat) ∈
        tinyBoard.get_neighbours ⟨0, 0, Direction.right, 2, 0⟩ ∧
      ((⟨1, 0, Direction.down, 2, 0⟩ : State).facing ≠ Direction.right ∧
        (⟨1, 0, Direction.down, 2, 0⟩ : State).facing ≠ Direction.right.opposite) ∧
      (⟨1, 0, Direction.down, 2, 0⟩ : State).must_turn_in =
        tinyBoard.constraints.max_straight_line - 1 ∧
      (⟨1, 0, Direction.down, 2, 0⟩ : State).can_turn_in =
        min tinyBoard.constraints.min_straight_line
          (tinyBoard.constraints.max_straight_line + 1) - 1 ∧
      (1 : Nat) = tinyBoard.tileAt 1 0) :=
  ⟨⟨by decide, by decide, rfl⟩,
   turn_candidate_fields tinyBoard ⟨0, 0, Direction.right, 2, 0⟩
     (by decide) (by decide) rfl ⟨⟨1, 0, Direction.down, 2, 0⟩, 1⟩ (by decide)⟩

/-! Claim C6: counter bounds on non-seed reachable states. -/

/-- C6: every state reachable by at least one transition from the
seeding states has must_turn_in at most max_straight_line - 1 and
can_turn_in at most min_straight_line - 1 (Nat subtraction, so
can_turn_in = 0 when min_straight_line = 0), and every further
transition from a state within those bounds stays within them. -/
theorem reachable_counter_bounds (b : Board) (start : Nat × Nat)
    (_hmax : 1 ≤ b.constraints.max_straight_line) :
    (∀ s, ReachableFrom b start s →
      s.must_turn_in ≤ b.constraints.max_straight_line - 1 ∧
      s.can_turn_in ≤ b.constraints.min_straight_line - 1) ∧
    (∀ s t w,
      s.must_turn_in ≤ b.constraints.max_straight_line - 1 →
      s.can_turn_in ≤ b.constraints.min_straight_line - 1 →
      (t, w) ∈ b.get_neighbours s →
      t.must_turn_in ≤ b.constraints.max_straight_line - 1 ∧
      t.can_turn_in ≤ b.constraints.min_straight_line - 1) ∧
    (b.constraints.min_straight_line = 0 →
      ∀ s, ReachableFrom b start s → s.can_turn_in = 0) := by
  have hreach : ∀ s, ReachableFrom b start s →
      s.must_turn_in ≤ b.constraints.max_straight_line - 1 ∧
      s.can_turn_in ≤ b.constraints.min_straight_line - 1 := by
    intro s hs
    induction hs with
    | head hseed hstep =>
      rcases mem_startStates.mp hseed with ⟨d, rfl⟩
      exact neighbour_counter_bounds (le_refl _) (le_refl _) hstep
    | tail _ hstep ih =>
      exact neighbour_counter_bounds (le_trans ih.1 (Nat.sub_le _ _))
        (le_trans ih.2 (Nat.sub_le _ _)) hstep
  refine ⟨hreach, fun s t w h1 h2 ht => ?_, fun hmin s hs => ?_⟩
  · exact neighbour_counter_bounds (le_trans h1 (Nat.sub_le _ _))
      (le_trans h2 (Nat.sub_le _ _)) ht
  · have := (hreach s hs).2
    omega

/-- Witness for C6 at a concrete input: the state one straight step to
the right of the source on the tiny board. -/
theorem reachable_counter_bounds_witness :
    1 ≤ tinyBoard.constraints.max_straight_line ∧
    ((⟨0, 1, Direction.right, 2, 0⟩ : State).must_turn_in ≤
      tinyBoard.constraints.max_straight_line - 1 ∧
    (⟨0, 1, Direction.right, 2, 0⟩ : State).can_turn_in ≤
      tinyBoard.constraints.min_straight_line - 1) :=
  ⟨by decide,
   (reachable_counter_bounds tinyBoard (0, 0) (by decide)).1
     ⟨0, 1, Direction.right, 2, 0⟩
     (@ReachableFrom.head tinyBoard (0, 0) ⟨0, 0, Direction.right, 3, 0⟩
       ⟨0, 1, Direction.right, 2, 0⟩ 1 (by decide) (by decide))⟩

/-! Claim C10: can_turn_in never exceeds must_turn_in on reachable
states. -/

/-- C10: for valid constraints (min_straight_line ≤ max_straight_line,
max_straight_line ≥ 1), every state reachable from the seeding states by
zero or more transitions has can_turn_in ≤ must_turn_in; in particular a
reachable state with must_turn_in = 0 also has can_turn_in = 0, so no
reachable state has both continuing straight and turning forbidden. -/
theorem reachable_can_le_must (b : Board) (start : Nat × Nat)
    (hvalid : b.constraints.min_straight_line ≤ b.constraints.max_straight_line)
    (_hmax : 1 ≤ b.constraints.max_straight_line) :
    ∀ s, ReachState b start s →
      s.can_turn_in ≤ s.must_turn_in ∧
      (s.must_turn_in = 0 → s.can_turn_in = 0) := by
  have main : ∀ s, ReachState b start s → s.can_turn_in ≤ s.must_turn_in := by
    intro s hs
    induction hs with
    | start hseed =>
      rcases mem_startStates.mp hseed with ⟨d, rfl⟩
      exact hvalid
    | step _ hstep ih =>
      rcases mem_get_neighbours.mp hstep with ⟨-, hmem⟩ | ⟨hpos, hmem⟩
      · rcases turnCandidates_fields hmem with ⟨-, h1, h2, -⟩
        omega
      · rcases straightCandidate_fields hmem with ⟨-, h1, h2, -⟩
        omega
  intro s hs
  have h := main s hs
  exact ⟨h, fun h0 => by omega⟩

/-- Witness for C10 at a concrete input: a seeding state of the tiny
board. -/
theorem reachable_can_le_must_witness :
    (tinyBoard.constraints.min_straight_line ≤
        tinyBoard.constraints.max_straight_line ∧
      1 ≤ tinyBoard.constraints.max_straight_line) ∧
    ((⟨0, 0, Direction.right, 3, 0⟩ : State).can_turn_in ≤
        (⟨0, 0, Direction.right, 3, 0⟩ : State).must_turn_in ∧
      ((⟨0, 0, Direction.right, 3, 0⟩ : State).must_turn_in = 0 →
        (⟨0, 0, Direction.right, 3, 0⟩ : State).can_turn_in = 0)) :=
  ⟨⟨by decide, by decide⟩,
   reachable_can_le_must tinyBoard (0, 0) (by decide) (by decide)
     ⟨0, 0, Direction.right, 3, 0⟩ (ReachState.start (by decide))⟩

/-! Fuel monotonicity of the search loop. -/

theorem find_path_loop_fuel_mono {b : Board} {goal : Nat × Nat} :
    ∀ {fuel : Nat} {queue : List PathStep} {closed : List State},
      find_path_loop b goal fuel queue closed ≠ .outOfFuel →
      ∀ {fuel' : Nat}, fuel ≤ fuel' →
        find_path_loop b goal fuel' queue closed =
          find_path_loop b goal fuel queue closed := by
  intro fuel
  induction fuel with
  | zero =>
    intro queue closed h
    exact absurd rfl h
  | succ n ih =>
    intro queue closed h fuel' hle
    obtain ⟨k, rfl⟩ : ∃ k, fuel' = k + 1 :=
      ⟨fuel' - 1, by omega⟩
    match queue with
    | [] => rfl
    | step :: rest =>
      by_cases hg : (step.state.row, step.state.col) = goal ∧ step.state.can_turn_in = 0
      · rw [find_path_loop, if_pos hg, find_path_loop, if_pos hg]
      · rw [find_path_loop, if_neg hg] at h ⊢
        rw [find_path_loop, if_neg hg]
        exact ih h (by omega)

theorem find_path_fuel_mono {b : Board} {start goal : Nat × Nat} {fuel : Nat}
    (h : find_path fuel b start goal ≠ .outOfFuel)
    {fuel' : Nat} (hle : fuel ≤ fuel') :
    find_path fuel' b start goal = find_path fuel b start goal :=
  find_path_loop_fuel_mono h hle

/-! Claim C2: behaviour on unreachable targets. -/

/-- C2 counterexample: on the 1-by-5 corridor with the clumsy
constraints and target (0, 2), no acceptable goal state is reachable,
and find_path does not return a distinguished unreachable value: it
reaches the PathQueue::pop panic on the exhausted queue (the Rust
expect("No path exists!")), embedded as SearchResult.noPath. -/
theorem find_path_unreachable_panics :
    Board.fromTiles [[1, 1, 1, 1, 1]] CONSTRAINTS_PART_2 = some corridorBoard ∧
    find_path 9 corridorBoard (0, 0) (0, 2) = .noPath := by
  decide

/-! Claim C7: constraints validation. -/

/-- C7 counterexample: the invalid configuration min_straight_line = 5 >
max_straight_line = 1 is not rejected at Constraints construction - the
struct has no validating constructor - and search work proceeds with it:
find_path runs and reaches the mid-search queue-exhaustion panic. -/
theorem constraints_not_validated :
    invalidConstraints.max_straight_line < invalidConstraints.min_straight_line ∧
    Board.fromTiles [[1, 1], [1, 1]] invalidConstraints = some invalidBoard ∧
    find_path 7 invalidBoard (0, 0) (1, 1) = .noPath := by
  decide

/-- C7 amended: Constraints construction is total and unvalidated: every
pair of values, min_straight_line > max_straight_line included, yields a
Constraints value, and the search runs with such invalid configurations,
any failure surfacing mid-search (here the queue-exhaustion panic) and
not at construction. -/
theorem constraints_construction_total :
    (∀ mx mn : Nat, ∃ c : Constraints,
      c.max_straight_line = mx ∧ c.min_straight_line = mn) ∧
    find_path 7 invalidBoard (0, 0) (1, 1) = .noPath :=
  ⟨fun mx mn => ⟨⟨mx, mn⟩, rfl, rfl⟩, by decide⟩

theorem get_neighbours_cases_witness :
    ((⟨0, 0, Direction.right, 2, 0⟩ : State).can_turn_in = 0 ∧
      0 < (⟨0, 0, Direction.right, 2, 0⟩ : State).must_turn_in) ∧
    tinyBoard.get_neighbours ⟨0, 0, Direction.right, 2, 0⟩ =
      turnCandidates tinyBoard ⟨0, 0, Direction.right, 2, 0⟩ ++
        (straightCandidate tinyBoard ⟨0, 0, Direction.right, 2, 0⟩).toList ∧
    (tinyBoard.get_neighbours ⟨0, 0, Direction.right, 2, 0⟩).length ≤ 3 :=
  ⟨⟨rfl, by decide⟩,
   (get_neighbours_cases tinyBoard ⟨0, 0, Direction.right, 2, 0⟩).1 rfl (by decide)⟩

/-! Claim C8: with min_straight_line = 0 the search coincides with the
max-only Dijkstra model. -/

theorem embedFree_injective : Function.Injective embedFree := by
  intro a b h
  cases a
  cases b
  simp only [embedFree, State.mk.injEq] at h
  obtain ⟨h1, h2, h3, h4, -⟩ := h
  subst h1
  subst h2
  subst h3
  subst h4
  rfl

theorem embedFreeStep_injective : Function.Injective embedFreeStep := by
  intro a b h
  cases a
  cases b
  simp only [embedFreeStep, PathStep.mk.injEq] at h
  obtain ⟨h1, h2⟩ := h
  rw [embedFree_injective h1, h2]

theorem add_neighbour_tile_free (b : Board) (r c : Nat) (f : Direction)
    (m : Nat) :
    b.add_neighbour_tile r c f m 0 =
      (maxOnly_add b r c f m).map fun q => (embedFree q.1, q.2) := by
  unfold Board.add_neighbour_tile maxOnly_add
  cases b.get_neighbour_tile r c f with
  | none => rfl
  | some rc =>
    cases rc
    rfl

theorem get_neighbours_embedFree {b : Board}
    (hmin : b.constraints.min_straight_line = 0) (s : FreeState) :
    b.get_neighbours (embedFree s) =
      (maxOnly_neighbours b s).map fun q => (embedFree q.1, q.2) := by
  unfold Board.get_neighbours maxOnly_neighbours
  rw [List.map_append]
  congr 1
  · rw [if_pos (show (embedFree s).can_turn_in = 0 from rfl)]
    rw [List.map_filterMap]
    apply List.filterMap_congr
    intro d _
    show b.add_neighbour_tile s.row s.col d
      (b.constraints.max_straight_line - 1)
      (b.constraints.min_straight_line - 1) = _
    rw [hmin]
    exact add_neighbour_tile_free b s.row s.col d _
  · show (if 0 < s.must_turn_in then
        (b.add_neighbour_tile s.row s.col s.facing
          (s.must_turn_in - 1) 0).toList
      else []) = _
    by_cases hm : 0 < s.must_turn_in
    · rw [if_pos hm, if_pos hm, add_neighbour_tile_free]
      cases maxOnly_add b s.row s.col s.facing (s.must_turn_in - 1) with
      | none => rfl
      | some q => rfl
    · rw [if_neg hm, if_neg hm]
      rfl

theorem insertByCost_map (p : FreeStep) (q : List FreeStep) :
    insertByCost (embedFreeStep p) (q.map embedFreeStep) =
      (insertFreeByCost p q).map embedFreeStep := by
  induction q with
  | nil => rfl
  | cons a t ih =>
    show insertByCost _ (embedFreeStep a :: t.map embedFreeStep) = _
    unfold insertByCost insertFreeByCost
    have hc : ∀ x : FreeStep, (embedFreeStep x).cost_to = x.cost_to :=
      fun x => rfl
    rw [hc, hc]
    by_cases h : p.cost_to < a.cost_to
    · rw [if_pos h, if_pos h]
      rfl
    · rw [if_neg h, if_neg h]
      simp only [List.map_cons]
      rw [show insertByCost (embedFreeStep p) (t.map embedFreeStep) =
        (insertFreeByCost p t).map embedFreeStep from ih]

theorem mem_map_embedFreeStep {p : FreeStep} {q : List FreeStep} :
    embedFreeStep p ∈ q.map embedFreeStep ↔ p ∈ q :=
  List.mem_map_of_injective embedFreeStep_injective

theorem push_map (q : List FreeStep) (p : FreeStep) :
    PathQueue.push (q.map embedFreeStep) (embedFreeStep p) =
      (FreeQueue.push q p).map embedFreeStep := by
  unfold PathQueue.push FreeQueue.push
  by_cases h : p ∈ q
  · rw [if_pos (mem_map_embedFreeStep.mpr h), if_pos h]
  · rw [if_neg (fun hc => h (mem_map_embedFreeStep.mp hc)), if_neg h,
      insertByCost_map]

theorem expand_fold_map (c : Nat) (closed' : List FreeState) :
    ∀ (ns : List (FreeState × Nat)) (acc : List FreeStep),
      ns.foldl
        (fun q nb =>
          if (embedFree nb.1) ∈ closed'.map embedFree then q
          else PathQueue.push q ⟨embedFree nb.1, c + nb.2⟩)
        (acc.map embedFreeStep) =
      (ns.foldl
        (fun q nb =>
          if nb.1 ∈ closed' then q
          else FreeQueue.push q ⟨nb.1, c + nb.2⟩)
        acc).map embedFreeStep := by
  intro ns
  induction ns with
  | nil => intro acc; rfl
  | cons nb t ih =>
    intro acc
    simp only [List.foldl_cons]
    by_cases h : nb.1 ∈ closed'
    · rw [if_pos (List.mem_map_of_injective embedFree_injective |>.mpr h),
        if_pos h]
      exact ih acc
    · rw [if_neg (fun hc =>
          h (List.mem_map_of_injective embedFree_injective |>.mp hc)),
        if_neg h]
      rw [show PathQueue.push (acc.map embedFreeStep) ⟨embedFree nb.1, c + nb.2⟩ =
        (FreeQueue.push acc ⟨nb.1, c + nb.2⟩).map embedFreeStep from
          push_map acc ⟨nb.1, c + nb.2⟩]
      exact ih _

theorem expand_map {b : Board}
    (hmin : b.constraints.min_straight_line = 0) (p : FreeStep)
    (rest : List FreeStep) (closed : List FreeState) :
    expandStep b (embedFreeStep p) (rest.map embedFreeStep)
        (closed.map embedFree) =
      ((maxOnly_expand b p rest closed).1.map embedFreeStep,
       (maxOnly_expand b p rest closed).2.map embedFree) := by
  unfold expandStep maxOnly_expand
  refine Prod.ext ?_ rfl
  show (b.get_neighbours (embedFree p.state)).foldl _ _ = _
  rw [get_neighbours_embedFree hmin, List.foldl_map]
  exact expand_fold_map p.cost_to (p.state :: closed)
    (maxOnly_neighbours b p.state) rest

theorem find_path_loop_embedFree {b : Board} {goal : Nat × Nat}
    (hmin : b.constraints.min_straight_line = 0) :
    ∀ (fuel : Nat) (q : List FreeStep) (closed : List FreeState),
      find_path_loop b goal fuel (q.map embedFreeStep) (closed.map embedFree) =
        maxOnly_loop b goal fuel q closed := by
  intro fuel
  induction fuel with
  | zero => intro q closed; rfl
  | succ n ih =>
    intro q closed
    cases q with
    | nil => rfl
    | cons p rest =>
      show find_path_loop b goal (n + 1)
        (embedFreeStep p :: rest.map embedFreeStep) (closed.map embedFree) = _
      by_cases hg : (p.state.row, p.state.col) = goal
      · rw [find_path_loop, if_pos ⟨hg, rfl⟩, maxOnly_loop, if_pos hg]
        rfl
      · rw [find_path_loop, if_neg (fun hc => hg hc.1), maxOnly_loop, if_neg hg]
        show find_path_loop b goal n
          (expandStep b (embedFreeStep p) (rest.map embedFreeStep)
            (closed.map embedFree)).1
          (expandStep b (embedFreeStep p) (rest.map embedFreeStep)
            (closed.map embedFree)).2 = _
        rw [expand_map hmin]
        exact ih _ _

/-- C8: for every grid, source and target, every fuel, and valid
constraints with min_straight_line = 0, the constrained search returns
the same result (in particular the same cost) as the unconstrained
Dijkstra search augmented only with the max_straight_line bound on
consecutive straight moves. -/
theorem find_path_min_zero_refines (b : Board) (start goal : Nat × Nat)
    (fuel : Nat) (_hmax : 1 ≤ b.constraints.max_straight_line)
    (hmin : b.constraints.min_straight_line = 0) :
    find_path fuel b start goal = maxOnly_find_path fuel b start goal := by
  unfold find_path maxOnly_find_path
  have hseeds : get_start_steps start b.constraints =
      (maxOnly_start_steps start b.constraints).map embedFreeStep := by
    unfold get_start_steps maxOnly_start_steps
    rw [List.map_map]
    apply List.map_congr_left
    intro d _
    simp [embedFreeStep, embedFree, hmin]
  have hfold : ∀ (l : List FreeStep) (acc : List FreeStep),
      (l.map embedFreeStep).foldl PathQueue.push (acc.map embedFreeStep) =
        (l.foldl FreeQueue.push acc).map embedFreeStep := by
    intro l
    induction l with
    | nil => intro acc; rfl
    | cons a t ih =>
      intro acc
      simp only [List.map_cons, List.foldl_cons]
      rw [push_map]
      exact ih _
  rw [hseeds,
    show ([] : List PathStep) = ([] : List FreeStep).map embedFreeStep from rfl,
    hfold,
    show ([] : List State) = ([] : List FreeState).map embedFree from rfl,
    find_path_loop_embedFree hmin]

/-- Witness for C8 at a concrete input: the tiny board (min = 0). -/
theorem find_path_min_zero_refines_witness :
    (1 ≤ tinyBoard.constraints.max_straight_line ∧
      tinyBoard.constraints.min_straight_line = 0) ∧
    find_path 64 tinyBoard (0, 0) (1, 1) =
      maxOnly_find_path 64 tinyBoard (0, 0) (1, 1) :=
  ⟨⟨by decide, rfl⟩,
   find_path_min_zero_refines tinyBoard (0, 0) (1, 1) 64 (by decide) rfl⟩

/-! Queue lemmas. -/

theorem mem_insertByCost {x p : PathStep} {q : List PathStep} :
    x ∈ insertByCost p q ↔ x = p ∨ x ∈ q := by
  induction q with
  | nil => simp [insertByCost]
  | cons a t ih =>
    unfold insertByCost
    by_cases h : p.cost_to < a.cost_to
    · rw [if_pos h]
      simp [List.mem_cons]
    · rw [if_neg h]
      simp [List.mem_cons, ih]
      tauto

theorem insertByCost_length (p : PathStep) (q : List PathStep) :
    (insertByCost p q).length = q.length + 1 := by
  induction q with
  | nil => rfl
  | cons a t ih =>
    unfold insertByCost
    by_cases h : p.cost_to < a.cost_to
    · rw [if_pos h]
      rfl
    · rw [if_neg h]
      simp [ih]

theorem insertByCost_sorted {p : PathStep} {q : List PathStep}
    (hq : QueueSorted q) : QueueSorted (insertByCost p q) := by
  induction q with
  | nil => simp [insertByCost, QueueSorted]
  | cons a t ih =>
    rcases List.pairwise_cons.mp hq with ⟨ha, ht⟩
    unfold insertByCost
    by_cases h : p.cost_to < a.cost_to
    · rw [if_pos h]
      refine List.Pairwise.cons ?_ hq
      intro y hy
      rcases List.mem_cons.mp hy with rfl | hy
      · exact Nat.le_of_lt h
      · exact (Nat.le_of_lt h).trans (ha y hy)
    · rw [if_neg h]
      refine List.Pairwise.cons ?_ (ih ht)
      intro y hy
      rcases mem_insertByCost.mp hy with rfl | hy
      · exact Nat.le_of_not_lt h
      · exact ha y hy

theorem insertByCost_nodup {p : PathStep} {q : List PathStep}
    (hp : p ∉ q) (hq : q.Nodup) : (insertByCost p q).Nodup := by
  induction q with
  | nil => simp [insertByCost]
  | cons a t ih =>
    rcases List.nodup_cons.mp hq with ⟨ha, ht⟩
    unfold insertByCost
    by_cases h : p.cost_to < a.cost_to
    · rw [if_pos h]
      exact List.nodup_cons.mpr ⟨hp, hq⟩
    · rw [if_neg h]
      refine List.nodup_cons.mpr
        ⟨?_, ih (fun hc => hp (List.mem_cons_of_mem a hc)) ht⟩
      intro hc
      rcases mem_insertByCost.mp hc with h1 | h1
      · exact hp (by rw [← h1]; exact List.mem_cons_self a t)
      · exact ha h1

theorem mem_push {x p : PathStep} {q : List PathStep} :
    x ∈ PathQueue.push q p ↔ x = p ∨ x ∈ q := by
  unfold PathQueue.push
  by_cases h : p ∈ q
  · rw [if_pos h]
    constructor
    · exact Or.inr
    · rintro (rfl | hx)
      exacts [h, hx]
  · rw [if_neg h]
    exact mem_insertByCost

theorem push_sorted {q : List PathStep} {p : PathStep} (hq : QueueSorted q) :
    QueueSorted (PathQueue.push q p) := by
  unfold PathQueue.push
  by_cases h : p ∈ q
  · rw [if_pos h]
    exact hq
  · rw [if_neg h]
    exact insertByCost_sorted hq

theorem push_nodup {q : List PathStep} {p : PathStep} (hq : q.Nodup) :
    (PathQueue.push q p).Nodup := by
  unfold PathQueue.push
  by_cases h : p ∈ q
  · rw [if_pos h]
    exact hq
  · rw [if_neg h]
    exact insertByCost_nodup h hq

/-! The expansion fold of the loop body. -/

theorem expand_fold_mem {c : Nat} {cl : List State} :
    ∀ {ns : List (State × Nat)} {acc : List PathStep} {x : PathStep},
      (x ∈ ns.foldl (fun q nb =>
        if nb.1 ∈ cl then q else PathQueue.push q ⟨nb.1, c + nb.2⟩) acc) ↔
      x ∈ acc ∨ ∃ t w, (t, w) ∈ ns ∧ t ∉ cl ∧ x = ⟨t, c + w⟩ := by
  intro ns
  induction ns with
  | nil =>
    intro acc x
    simp
  | cons nb tl ih =>
    intro acc x
    obtain ⟨n1, n2⟩ := nb
    rw [List.foldl_cons, ih]
    by_cases h : n1 ∈ cl
    · rw [if_pos h]
      constructor
      · rintro (hx | ⟨t, w, htw, hcl, rfl⟩)
        · exact Or.inl hx
        · exact Or.inr ⟨t, w, List.mem_cons_of_mem _ htw, hcl, rfl⟩
      · rintro (hx | ⟨t, w, htw, hcl, rfl⟩)
        · exact Or.inl hx
        · rcases List.mem_cons.mp htw with heq | htw
          · injection heq with h1 h2
            subst h1
            exact absurd h hcl
          · exact Or.inr ⟨t, w, htw, hcl, rfl⟩
    · rw [if_neg h]
      constructor
      · rintro (hx | ⟨t, w, htw, hcl, rfl⟩)
        · rcases mem_push.mp hx with rfl | hx
          · exact Or.inr ⟨n1, n2, List.mem_cons_self _ _, h, rfl⟩
          · exact Or.inl hx
        · exact Or.inr ⟨t, w, List.mem_cons_of_mem _ htw, hcl, rfl⟩
      · rintro (hx | ⟨t, w, htw, hcl, rfl⟩)
        · exact Or.inl (mem_push.mpr (Or.inr hx))
        · rcases List.mem_cons.mp htw with heq | htw
          · injection heq with h1 h2
            subst h1
            subst h2
            exact Or.inl (mem_push.mpr (Or.inl rfl))
          · exact Or.inr ⟨t, w, htw, hcl, rfl⟩

theorem expand_fold_sorted {c : Nat} {cl : List State} :
    ∀ {ns : List (State × Nat)} {acc : List PathStep}, QueueSorted acc →
      QueueSorted (ns.foldl (fun q nb =>
        if nb.1 ∈ cl then q else PathQueue.push q ⟨nb.1, c + nb.2⟩) acc) := by
  intro ns
  induction ns with
  | nil => exact fun h => h
  | cons nb tl ih =>
    intro acc h
    rw [List.foldl_cons]
    apply ih
    by_cases hcl : nb.1 ∈ cl
    · rw [if_pos hcl]
      exact h
    · rw [if_neg hcl]
      exact push_sorted h

theorem expand_fold_nodup {c : Nat} {cl : List State} :
    ∀ {ns : List (State × Nat)} {acc : List PathStep}, acc.Nodup →
      (ns.foldl (fun q nb =>
        if nb.1 ∈ cl then q else PathQueue.push q ⟨nb.1, c + nb.2⟩) acc).Nodup := by
  intro ns
  induction ns with
  | nil => exact fun h => h
  | cons nb tl ih =>
    intro acc h
    rw [List.foldl_cons]
    apply ih
    by_cases hcl : nb.1 ∈ cl
    · rw [if_pos hcl]
      exact h
    · rw [if_neg hcl]
      exact push_nodup h

theorem sorted_head_le {step : PathStep} {rest : List PathStep}
    (h : QueueSorted (step :: rest)) :
    ∀ p ∈ step :: rest, step.cost_to ≤ p.cost_to := by
  intro p hp
  rcases List.mem_cons.mp hp with rfl | hp
  · exact le_refl _
  · exact (List.pairwise_cons.mp h).1 p hp

theorem mem_get_start_steps {start : Nat × Nat} {c : Constraints}
    {p : PathStep} :
    p ∈ get_start_steps start c ↔
      ∃ d : Direction,
        p = ⟨⟨start.1, start.2, d, c.max_straight_line,
          c.min_straight_line⟩, 0⟩ := by
  unfold get_start_steps
  simp [eq_comm]
  constructor
  · rintro (h | h | h | h) <;> exact ⟨_, h⟩
  · rintro ⟨d, rfl⟩
    cases d
    · exact Or.inl rfl
    · exact Or.inr (Or.inl rfl)
    · exact Or.inr (Or.inr (Or.inl rfl))
    · exact Or.inr (Or.inr (Or.inr rfl))

/-! The cover lemma: every seed-reachable not-yet-closed state keeps a
queue entry at no more than its distance. -/

theorem loopInv_cover {b : Board} {start goal : Nat × Nat}
    {queue : List PathStep} {closed : List State}
    (inv : LoopInv b start goal queue closed) :
    ∀ {v : State} {d : Nat}, SeedReach b start v d → v ∉ closed →
      ∃ p ∈ queue, p.cost_to ≤ d := by
  intro v d hreach
  induction hreach with
  | @seed s hseed =>
    intro hv
    have hstep0 : (⟨s, 0⟩ : PathStep) ∈ get_start_steps start b.constraints := by
      rcases mem_startStates.mp hseed with ⟨dir, rfl⟩
      exact mem_get_start_steps.mpr ⟨dir, rfl⟩
    rcases inv.seeds _ hstep0 with hcl | hq
    · exact absurd hcl hv
    · exact ⟨_, hq, le_refl 0⟩
  | @step s t c w hu hstep ih =>
    intro hv
    by_cases hcl : s ∈ closed
    · rcases inv.settled s hcl with ⟨cu, -, hmin, hfront⟩
      rcases hfront t w hstep with htcl | ⟨ct, hle, hmem⟩
      · exact absurd htcl hv
      · exact ⟨⟨t, ct⟩, hmem, hle.trans (Nat.add_le_add_right (hmin c hu) w)⟩
    · rcases ih hcl with ⟨p, hp, hple⟩
      exact ⟨p, hp, hple.trans (Nat.le_add_right c w)⟩

/-! Preservation of the loop invariant by one expansion. -/

theorem loopInv_expand {b : Board} {start goal : Nat × Nat}
    {step : PathStep} {rest : List PathStep} {closed : List State}
    (inv : LoopInv b start goal (step :: rest) closed)
    (hng : ¬ GoalState goal step.state) :
    LoopInv b start goal (expandStep b step rest closed).1
      (expandStep b step rest closed).2 := by
  have hexp1 : (expandStep b step rest closed).1 =
      (b.get_neighbours step.state).foldl
        (fun q nb => if nb.1 ∈ step.state :: closed then q
          else PathQueue.push q ⟨nb.1, step.cost_to + nb.2⟩) rest := rfl
  have hexp2 : (expandStep b step rest closed).2 = step.state :: closed := rfl
  rw [hexp1, hexp2]
  have hsorted_rest : QueueSorted rest := (List.pairwise_cons.mp inv.sorted).2
  have hnodup_rest : rest.Nodup := (List.nodup_cons.mp inv.nodup).2
  refine ⟨expand_fold_sorted hsorted_rest, expand_fold_nodup hnodup_rest,
    ?_, ?_, ?_, ?_⟩
  · intro p hp
    rcases expand_fold_mem.mp hp with hp | ⟨t, w, htw, -, rfl⟩
    · exact inv.reach p (List.mem_cons_of_mem _ hp)
    · exact SeedReach.step (inv.reach step (List.mem_cons_self _ _)) htw
  · intro s hs
    rcases List.mem_cons.mp hs with rfl | hs
    · exact hng
    · exact inv.notGoal s hs
  · intro p hp
    rcases inv.seeds p hp with hcl | hq
    · exact Or.inl (List.mem_cons_of_mem _ hcl)
    · rcases List.mem_cons.mp hq with rfl | hq
      · exact Or.inl (List.mem_cons_self _ _)
      · exact Or.inr (expand_fold_mem.mpr (Or.inl hq))
  · intro u hu
    by_cases hucl : u ∈ closed
    · rcases inv.settled u hucl with ⟨cu, h1, h2, h3⟩
      refine ⟨cu, h1, h2, fun t w htw => ?_⟩
      rcases h3 t w htw with htcl | ⟨ct, hle, hmem⟩
      · exact Or.inl (List.mem_cons_of_mem _ htcl)
      · rcases List.mem_cons.mp hmem with heq | hmem
        · refine Or.inl ?_
          rw [show t = step.state from congrArg PathStep.state heq]
          exact List.mem_cons_self _ _
        · exact Or.inr ⟨ct, hle, expand_fold_mem.mpr (Or.inl hmem)⟩
    · have hu_eq : u = step.state := by
        rcases List.mem_cons.mp hu with h | h
        · exact h
        · exact absurd h hucl
      subst hu_eq
      refine ⟨step.cost_to, inv.reach step (List.mem_cons_self _ _), ?_, ?_⟩
      · intro d hd
        rcases loopInv_cover inv hd hucl with ⟨p, hp, hple⟩
        exact (sorted_head_le inv.sorted p hp).trans hple
      · intro t w htw
        by_cases htcl : t ∈ step.state :: closed
        · exact Or.inl htcl
        · exact Or.inr ⟨step.cost_to + w, le_refl _,
            expand_fold_mem.mpr (Or.inr ⟨t, w, htw, htcl, rfl⟩)⟩

/-! Soundness: a found result is the least goal cost. -/

theorem find_path_loop_found_isLeast {b : Board} {start goal : Nat × Nat} :
    ∀ {fuel : Nat} {queue : List PathStep} {closed : List State},
      LoopInv b start goal queue closed →
      ∀ {c : Nat}, find_path_loop b goal fuel queue closed = .found c →
        IsLeast (goalCosts b start goal) c := by
  intro fuel
  induction fuel with
  | zero =>
    intro queue closed _ c h
    simp [find_path_loop] at h
  | succ n ih =>
    intro queue closed inv c h
    cases queue with
    | nil => simp [find_path_loop] at h
    | cons step rest =>
      by_cases hg : (step.state.row, step.state.col) = goal ∧
          step.state.can_turn_in = 0
      · rw [find_path_loop, if_pos hg] at h
        injection h with h'
        subst h'
        constructor
        · exact ⟨step.state, inv.reach step (List.mem_cons_self _ _),
            ⟨hg.1, hg.2⟩⟩
        · intro d hd
          rcases hd with ⟨g, hgreach, hggoal⟩
          have hgcl : g ∉ closed := fun hc => inv.notGoal g hc hggoal
          rcases loopInv_cover inv hgreach hgcl with ⟨p, hp, hple⟩
          exact (sorted_head_le inv.sorted p hp).trans hple
      · rw [find_path_loop, if_neg hg] at h
        exact ih (loopInv_expand inv fun hgs => hg ⟨hgs.1, hgs.2⟩) h

/-! Progress: with a reachable acceptable goal state the queue never
empties. -/

theorem find_path_loop_ne_noPath {b : Board} {start goal : Nat × Nat} :
    ∀ {fuel : Nat} {queue : List PathStep} {closed : List State},
      LoopInv b start goal queue closed →
      (∃ d, d ∈ goalCosts b start goal) →
      find_path_loop b goal fuel queue closed ≠ .noPath := by
  intro fuel
  induction fuel with
  | zero =>
    intro queue closed _ _ h
    simp [find_path_loop] at h
  | succ n ih =>
    intro queue closed inv hpath
    cases queue with
    | nil =>
      rcases hpath with ⟨d, g, hgreach, hggoal⟩
      have hgcl : g ∉ closed := fun hc => inv.notGoal g hc hggoal
      rcases loopInv_cover inv hgreach hgcl with ⟨p, hp, -⟩
      exact absurd hp (List.not_mem_nil p)
    | cons step rest =>
      by_cases hg : (step.state.row, step.state.col) = goal ∧
          step.state.can_turn_in = 0
      · rw [find_path_loop, if_pos hg]
        intro h
        cases h
      · rw [find_path_loop, if_neg hg]
        exact ih (loopInv_expand inv fun hgs => hg ⟨hgs.1, hgs.2⟩) hpath

/-! The finite universe and cost bounds. -/

theorem mem_stateUniverse {b : Board} {s : State} :
    s ∈ stateUniverse b ↔ InUniverse b s := by
  unfold stateUniverse InUniverse
  simp only [Finset.mem_image, Finset.mem_product, Finset.mem_range,
    Finset.mem_univ, true_and]
  constructor
  · rintro ⟨⟨r, c, d, m, k⟩, ⟨hr, hc, hm, hk⟩, rfl⟩
    dsimp only at hr hc hm hk ⊢
    exact ⟨hr, hc, by omega, by omega⟩
  · rintro ⟨hr, hc, hm, hk⟩
    refine ⟨(s.row, s.col, s.facing, s.must_turn_in, s.can_turn_in),
      ⟨?_, ?_, ?_, ?_⟩, rfl⟩ <;> dsimp only <;> omega

theorem getD_le_foldr_max (l : List Nat) (i : Nat) :
    l.getD i 0 ≤ l.foldr max 0 := by
  induction l generalizing i with
  | nil => simp [List.getD]
  | cons a t ih =>
    cases i with
    | zero => exact Nat.le_max_left _ _
    | succ j => exact (ih j).trans (Nat.le_max_right _ _)

theorem rows_getD_foldr_le (ls : List (List Nat)) (r : Nat) :
    (ls.getD r []).foldr max 0 ≤
      (ls.map fun row => row.foldr max 0).foldr max 0 := by
  induction ls generalizing r with
  | nil => simp [List.getD]
  | cons a t ih =>
    cases r with
    | zero => exact Nat.le_max_left _ _
    | succ j => exact (ih j).trans (Nat.le_max_right _ _)

theorem tileAt_le_maxTile (b : Board) (r c : Nat) :
    b.tileAt r c ≤ b.maxTile :=
  (getD_le_foldr_max _ _).trans (rows_getD_foldr_le _ _)

theorem get_neighbours_cost_le {b : Board} {s t : State} {w : Nat}
    (h : (t, w) ∈ b.get_neighbours s) : w ≤ b.maxTile := by
  rcases mem_get_neighbours.mp h with ⟨-, hm⟩ | ⟨-, hm⟩
  · rcases turnCandidates_fields hm with ⟨-, -, -, rfl⟩
    exact tileAt_le_maxTile _ _ _
  · rcases straightCandidate_fields hm with ⟨-, -, -, rfl⟩
    exact tileAt_le_maxTile _ _ _

theorem get_neighbours_universe {b : Board} {s t : State} {w : Nat}
    (hs : InUniverse b s) (h : (t, w) ∈ b.get_neighbours s) :
    InUniverse b t := by
  obtain ⟨hrow, hcol, hmust, hcan⟩ := hs
  have hcnt := neighbour_counter_bounds hmust hcan h
  rcases mem_get_neighbours_inbounds h with ⟨⟨r1, c1⟩, hrc, hr, hc⟩
  dsimp only at hr hc
  unfold Board.get_neighbour_tile at hrc
  refine ⟨?_, ?_, by omega, by omega⟩
  · revert hrc
    cases t.facing <;> intro hrc <;> dsimp only at hrc <;> split at hrc
    all_goals first
      | (injection hrc with h0
         injection h0 with ha hb
         omega)
      | exact Option.noConfusion hrc
  · revert hrc
    cases t.facing <;> intro hrc <;> dsimp only at hrc <;> split at hrc
    all_goals first
      | (injection hrc with h0
         injection h0 with ha hb
         omega)
      | exact Option.noConfusion hrc

theorem startStates_universe {b : Board} {start : Nat × Nat}
    (h1 : start.1 < b.nb_rows) (h2 : start.2 < b.nb_cols) {s : State}
    (hs : s ∈ startStates b.constraints start) : InUniverse b s := by
  rcases mem_startStates.mp hs with ⟨d, rfl⟩
  exact ⟨h1, h2, le_refl _, le_refl _⟩

/-! Simple chains. -/

theorem SChain_head {b : Board} {start : Nat × Nat} {closed : List State}
    {s : State} {c : Nat} {L : List State}
    (h : SChain b start closed s c L) : ∃ L', L = s :: L' := by
  cases h with
  | seed _ => exact ⟨[], rfl⟩
  | step _ _ _ _ => exact ⟨_, rfl⟩

theorem SChain_nodup {b : Board} {start : Nat × Nat} {closed : List State}
    {s : State} {c : Nat} {L : List State}
    (h : SChain b start closed s c L) : L.Nodup := by
  induction h with
  | seed _ => simp
  | step _ _ _ hnot ih => exact List.nodup_cons.mpr ⟨hnot, ih⟩

theorem SChain_mem_closed {b : Board} {start : Nat × Nat}
    {closed : List State} {s : State} {c : Nat} {L : List State}
    (h : SChain b start closed s c L) : ∀ y ∈ L, y = s ∨ y ∈ closed := by
  induction h with
  | seed _ =>
    intro y hy
    rcases List.mem_singleton.mp hy with rfl
    exact Or.inl rfl
  | step _ hcl _ _ ih =>
    intro y hy
    rcases List.mem_cons.mp hy with rfl | hy
    · exact Or.inl rfl
    · rcases ih y hy with rfl | h
      · exact Or.inr hcl
      · exact Or.inr h

theorem SChain_universe {b : Board} {start : Nat × Nat}
    (h1 : start.1 < b.nb_rows) (h2 : start.2 < b.nb_cols)
    {closed : List State} {s : State} {c : Nat} {L : List State}
    (h : SChain b start closed s c L) : ∀ y ∈ L, InUniverse b y := by
  induction h with
  | seed hs =>
    intro y hy
    rcases List.mem_singleton.mp hy with rfl
    exact startStates_universe h1 h2 hs
  | @step s' t c' w L' hch hcl hstep hnot ih =>
    intro y hy
    rcases List.mem_cons.mp hy with rfl | hy
    · rcases SChain_head hch with ⟨L'', rfl⟩
      exact get_neighbours_universe (ih s' (List.mem_cons_self _ _)) hstep
    · exact ih y hy

theorem SChain_universe_head {b : Board} {start : Nat × Nat}
    (h1 : start.1 < b.nb_rows) (h2 : start.2 < b.nb_cols)
    {closed : List State} {s : State} {c : Nat} {L : List State}
    (h : SChain b start closed s c L) : InUniverse b s := by
  rcases SChain_head h with ⟨L', rfl⟩
  exact SChain_universe h1 h2 h s (List.mem_cons_self _ _)

theorem SChain_cost_le {b : Board} {start : Nat × Nat}
    {closed : List State} {s : State} {c : Nat} {L : List State}
    (h : SChain b start closed s c L) :
    c ≤ b.maxTile * (L.length - 1) := by
  induction h with
  | seed _ => simp
  | @step s' t c' w L' hch hcl hstep hnot ih =>
    have hw : w ≤ b.maxTile := get_neighbours_cost_le hstep
    have hlen : 1 ≤ L'.length := by
      rcases SChain_head hch with ⟨L'', rfl⟩
      simp
    calc c' + w ≤ b.maxTile * (L'.length - 1) + b.maxTile :=
        Nat.add_le_add ih hw
      _ = b.maxTile * (L'.length - 1 + 1) := (Nat.mul_succ _ _).symm
      _ = b.maxTile * L'.length := by rw [Nat.sub_add_cancel hlen]
      _ = b.maxTile * ((t :: L').length - 1) := by simp

theorem nodup_length_le_card {F : Finset State} {L : List State}
    (hnd : L.Nodup) (hsub : ∀ y ∈ L, y ∈ F) : L.length ≤ F.card := by
  rw [← List.toFinset_card_of_nodup hnd]
  exact Finset.card_le_card fun x hx => hsub x (List.mem_toFinset.mp hx)

theorem SChain_cost_le_bound {b : Board} {start : Nat × Nat}
    (h1 : start.1 < b.nb_rows) (h2 : start.2 < b.nb_cols)
    {closed : List State} {s : State} {c : Nat} {L : List State}
    (h : SChain b start closed s c L) : c ≤ costBound b := by
  have hlen : L.length ≤ (stateUniverse b).card :=
    nodup_length_le_card (SChain_nodup h)
      fun y hy => mem_stateUniverse.mpr (SChain_universe h1 h2 h y hy)
  calc c ≤ b.maxTile * (L.length - 1) := SChain_cost_le h
    _ ≤ b.maxTile * (stateUniverse b).card :=
      Nat.mul_le_mul_left _ (by omega)
    _ = costBound b := rfl

theorem SChain_mono {b : Board} {start : Nat × Nat}
    {closed closed' : List State} (hsub : ∀ x ∈ closed, x ∈ closed')
    {s : State} {c : Nat} {L : List State}
    (h : SChain b start closed s c L) : SChain b start closed' s c L := by
  induction h with
  | seed hs => exact SChain.seed hs
  | step _ hcl hstep hnot ih => exact SChain.step ih (hsub _ hcl) hstep hnot

/-! Preservation of the termination invariant. -/

theorem sizeInv_expand {b : Board} {start : Nat × Nat} {step : PathStep}
    {rest : List PathStep} {closed : List State}
    (sinv : SizeInv b start (step :: rest) closed) :
    SizeInv b start (expandStep b step rest closed).1
      (expandStep b step rest closed).2 := by
  constructor
  intro p hp
  have hp' : p ∈ (b.get_neighbours step.state).foldl
      (fun q nb => if nb.1 ∈ step.state :: closed then q
        else PathQueue.push q ⟨nb.1, step.cost_to + nb.2⟩) rest := hp
  rcases expand_fold_mem.mp hp' with hmem | ⟨t, w, htw, htcl, rfl⟩
  · rcases sinv.chains p (List.mem_cons_of_mem _ hmem) with ⟨L, hL⟩
    exact ⟨L, SChain_mono (fun x hx => List.mem_cons_of_mem _ hx) hL⟩
  · rcases sinv.chains step (List.mem_cons_self _ _) with ⟨L, hL⟩
    have hL' : SChain b start (step.state :: closed) step.state step.cost_to L :=
      SChain_mono (fun x hx => List.mem_cons_of_mem _ hx) hL
    have htL : t ∉ L := by
      intro hyL
      rcases SChain_mem_closed hL' t hyL with rfl | hmem2
      · exact htcl (List.mem_cons_self _ _)
      · exact htcl hmem2
    exact ⟨t :: L, SChain.step hL' (List.mem_cons_self _ _) htw htL⟩

/-! The decreasing measure. -/

theorem mem_queueSteps {queue : List PathStep} {e : State × Nat} :
    e ∈ queueSteps queue ↔ (⟨e.1, e.2⟩ : PathStep) ∈ queue := by
  unfold queueSteps
  rw [List.mem_toFinset, List.mem_map]
  constructor
  · rintro ⟨p, hp, rfl⟩
    exact hp
  · intro h
    exact ⟨⟨e.1, e.2⟩, h, rfl⟩

theorem queueSteps_cons (step : PathStep) (rest : List PathStep) :
    queueSteps (step :: rest) =
      insert (step.state, step.cost_to) (queueSteps rest) := by
  unfold queueSteps
  simp

theorem mem_availSteps {b : Board} {closed : List State} {e : State × Nat} :
    e ∈ availSteps b closed ↔
      (InUniverse b e.1 ∧ e.1 ∉ closed) ∧ e.2 ≤ costBound b := by
  unfold availSteps
  rw [Finset.mem_product, Finset.mem_sdiff, mem_stateUniverse,
    Finset.mem_range, List.mem_toFinset, Nat.lt_succ_iff]

theorem fold_measure_le {b : Board} {c : Nat} {cl : List State} :
    ∀ {ns : List (State × Nat)} {acc : List PathStep},
      (∀ t w, (t, w) ∈ ns → t ∉ cl → InUniverse b t ∧ c + w ≤ costBound b) →
      (availSteps b cl \ queueSteps (ns.foldl (fun q nb =>
          if nb.1 ∈ cl then q else PathQueue.push q ⟨nb.1, c + nb.2⟩) acc)).card +
        (ns.foldl (fun q nb =>
          if nb.1 ∈ cl then q else PathQueue.push q ⟨nb.1, c + nb.2⟩) acc).length ≤
      (availSteps b cl \ queueSteps acc).card + acc.length := by
  intro ns
  induction ns with
  | nil => exact fun _ => le_refl _
  | cons nb tl ih =>
    intro acc hcond
    obtain ⟨n1, n2⟩ := nb
    rw [List.foldl_cons]
    refine le_trans
      (ih fun t w htw htcl => hcond t w (List.mem_cons_of_mem _ htw) htcl) ?_
    by_cases h1 : n1 ∈ cl
    · rw [if_pos h1]
    · rw [if_neg h1]
      unfold PathQueue.push
      by_cases h2 : (⟨n1, c + n2⟩ : PathStep) ∈ acc
      · rw [if_pos h2]
      · rw [if_neg h2]
        have hq : queueSteps (insertByCost ⟨n1, c + n2⟩ acc) =
            insert (n1, c + n2) (queueSteps acc) := by
          apply Finset.ext
          intro e
          rw [Finset.mem_insert, mem_queueSteps, mem_queueSteps,
            mem_insertByCost]
          constructor
          · rintro (he | he)
            · refine Or.inl ?_
              have h3 : e.1 = n1 := congrArg PathStep.state he
              have h4 : e.2 = c + n2 := congrArg PathStep.cost_to he
              exact Prod.ext h3 h4
            · exact Or.inr he
          · rintro (rfl | he)
            · exact Or.inl rfl
            · exact Or.inr he
        rw [hq, insertByCost_length]
        obtain ⟨hU, hB⟩ :=
          hcond n1 n2 (List.mem_cons_self _ _) h1
        have heA : (n1, c + n2) ∈ availSteps b cl :=
          mem_availSteps.mpr ⟨⟨hU, h1⟩, hB⟩
        have heQ : (n1, c + n2) ∉ queueSteps acc := by
          rw [mem_queueSteps]
          exact h2
        have heAQ : (n1, c + n2) ∈ availSteps b cl \ queueSteps acc :=
          Finset.mem_sdiff.mpr ⟨heA, heQ⟩
        have hsd : availSteps b cl \ insert (n1, c + n2) (queueSteps acc) =
            (availSteps b cl \ queueSteps acc).erase (n1, c + n2) := by
          ext x
          simp only [Finset.mem_sdiff, Finset.mem_insert, Finset.mem_erase]
          tauto
        rw [hsd, Finset.card_erase_of_mem heAQ]
        have hpos : 0 < (availSteps b cl \ queueSteps acc).card :=
          Finset.card_pos.mpr ⟨_, heAQ⟩
        omega

theorem searchMeasure_decreases {b : Board} {start goal : Nat × Nat}
    {step : PathStep} {rest : List PathStep} {closed : List State}
    (h1 : start.1 < b.nb_rows) (h2 : start.2 < b.nb_cols)
    (inv : LoopInv b start goal (step :: rest) closed)
    (sinv : SizeInv b start (step :: rest) closed) :
    searchMeasure b (expandStep b step rest closed).1
        (expandStep b step rest closed).2 <
      searchMeasure b (step :: rest) closed := by
  obtain ⟨L, hL⟩ := sinv.chains step (List.mem_cons_self _ _)
  have hUstep : InUniverse b step.state := SChain_universe_head h1 h2 hL
  have hBstep : step.cost_to ≤ costBound b := SChain_cost_le_bound h1 h2 hL
  have hL' : SChain b start (step.state :: closed) step.state step.cost_to L :=
    SChain_mono (fun x hx => List.mem_cons_of_mem _ hx) hL
  have hcond : ∀ t w, (t, w) ∈ b.get_neighbours step.state →
      t ∉ step.state :: closed →
      InUniverse b t ∧ step.cost_to + w ≤ costBound b := by
    intro t w htw htcl
    have htL : t ∉ L := by
      intro hyL
      rcases SChain_mem_closed hL' t hyL with rfl | hmem2
      · exact htcl (List.mem_cons_self _ _)
      · exact htcl hmem2
    have hchain' : SChain b start (step.state :: closed) t
        (step.cost_to + w) (t :: L) :=
      SChain.step hL' (List.mem_cons_self _ _) htw htL
    exact ⟨get_neighbours_universe hUstep htw,
      SChain_cost_le_bound h1 h2 hchain'⟩
  have hm1 : searchMeasure b (expandStep b step rest closed).1
      (expandStep b step rest closed).2 ≤
      (availSteps b (step.state :: closed) \ queueSteps rest).card +
        rest.length :=
    fold_measure_le hcond
  have hstep_notin_rest : step ∉ rest := (List.nodup_cons.mp inv.nodup).1
  have he0R : (step.state, step.cost_to) ∉ queueSteps rest := by
    rw [mem_queueSteps]
    exact hstep_notin_rest
  have hfinal : searchMeasure b (step :: rest) closed =
      (availSteps b closed \ queueSteps (step :: rest)).card +
        rest.length + 1 := by
    unfold searchMeasure
    rw [List.length_cons]
    omega
  by_cases hclosed : step.state ∈ closed
  · have hA : availSteps b (step.state :: closed) = availSteps b closed := by
      unfold availSteps
      rw [List.toFinset_cons,
        Finset.insert_eq_self.mpr (List.mem_toFinset.mpr hclosed)]
    have hAQ : availSteps b closed \ queueSteps (step :: rest) =
        availSteps b closed \ queueSteps rest := by
      rw [queueSteps_cons]
      ext x
      simp only [Finset.mem_sdiff, Finset.mem_insert]
      constructor
      · rintro ⟨hxA, hxQ⟩
        exact ⟨hxA, fun h => hxQ (Or.inr h)⟩
      · rintro ⟨hxA, hxR⟩
        refine ⟨hxA, ?_⟩
        rintro (rfl | h)
        · rcases mem_availSteps.mp hxA with ⟨⟨-, hnc⟩, -⟩
          exact hnc hclosed
        · exact hxR h
    rw [hA] at hm1
    have hAQcard : (availSteps b closed \ queueSteps (step :: rest)).card =
        (availSteps b closed \ queueSteps rest).card := by
      rw [hAQ]
    omega
  · have he0A : (step.state, step.cost_to) ∈ availSteps b closed :=
      mem_availSteps.mpr ⟨⟨hUstep, hclosed⟩, hBstep⟩
    have he0AR : (step.state, step.cost_to) ∈
        availSteps b closed \ queueSteps rest :=
      Finset.mem_sdiff.mpr ⟨he0A, he0R⟩
    have hsub : availSteps b (step.state :: closed) \ queueSteps rest ⊆
        (availSteps b closed \ queueSteps rest).erase
          (step.state, step.cost_to) := by
      intro x hx
      rcases Finset.mem_sdiff.mp hx with ⟨hxA', hxR⟩
      rcases mem_availSteps.mp hxA' with ⟨⟨hxU, hxnc⟩, hxB⟩
      have hxne : x ≠ (step.state, step.cost_to) := by
        intro hxe
        rw [hxe] at hxnc
        exact hxnc (List.mem_cons_self _ _)
      exact Finset.mem_erase.mpr ⟨hxne, Finset.mem_sdiff.mpr
        ⟨mem_availSteps.mpr
          ⟨⟨hxU, fun hc => hxnc (List.mem_cons_of_mem _ hc)⟩, hxB⟩, hxR⟩⟩
    have hcard1 : (availSteps b (step.state :: closed) \ queueSteps rest).card ≤
        (availSteps b closed \ queueSteps rest).card - 1 := by
      have h := Finset.card_le_card hsub
      rw [Finset.card_erase_of_mem he0AR] at h
      exact h
    have hAQ : (availSteps b closed \ queueSteps (step :: rest)).card =
        (availSteps b closed \ queueSteps rest).card - 1 := by
      rw [queueSteps_cons]
      have hsd : availSteps b closed \
          insert (step.state, step.cost_to) (queueSteps rest) =
          (availSteps b closed \ queueSteps rest).erase
            (step.state, step.cost_to) := by
        ext x
        simp only [Finset.mem_sdiff, Finset.mem_insert, Finset.mem_erase]
        tauto
      rw [hsd, Finset.card_erase_of_mem he0AR]
    have hpos : 0 < (availSteps b closed \ queueSteps rest).card :=
      Finset.card_pos.mpr ⟨_, he0AR⟩
    omega

/-! Termination of the loop under the invariants. -/

theorem find_path_loop_terminates {b : Board} {start goal : Nat × Nat}
    (h1 : start.1 < b.nb_rows) (h2 : start.2 < b.nb_cols) :
    ∀ (n : Nat) {queue : List PathStep} {closed : List State},
      searchMeasure b queue closed ≤ n →
      LoopInv b start goal queue closed →
      SizeInv b start queue closed →
      find_path_loop b goal (n + 1) queue closed ≠ .outOfFuel := by
  intro n
  induction n using Nat.strong_induction_on with
  | _ n ih =>
    intro queue closed hm inv sinv
    cases queue with
    | nil =>
      intro h
      rw [find_path_loop] at h
      cases h
    | cons step rest =>
      by_cases hg : (step.state.row, step.state.col) = goal ∧
          step.state.can_turn_in = 0
      · rw [find_path_loop, if_pos hg]
        intro h
        cases h
      · rw [find_path_loop, if_neg hg]
        have hdec := searchMeasure_decreases h1 h2 inv sinv
        have hlen : 1 ≤ searchMeasure b (step :: rest) closed := by
          unfold searchMeasure
          rw [List.length_cons]
          omega
        obtain ⟨m, rfl⟩ : ∃ m, n = m + 1 := ⟨n - 1, by omega⟩
        exact ih m (by omega) (by omega)
          (loopInv_expand inv fun hgs => hg ⟨hgs.1, hgs.2⟩)
          (sizeInv_expand sinv)

/-! Initial invariants. -/

theorem mem_foldl_push :
    ∀ {l acc : List PathStep} {x : PathStep},
      x ∈ l.foldl PathQueue.push acc ↔ x ∈ acc ∨ x ∈ l := by
  intro l
  induction l with
  | nil =>
    intro acc x
    simp
  | cons a t ih =>
    intro acc x
    rw [List.foldl_cons, ih]
    constructor
    · rintro (hx | hx)
      · rcases mem_push.mp hx with rfl | hx
        · exact Or.inr (List.mem_cons_self _ _)
        · exact Or.inl hx
      · exact Or.inr (List.mem_cons_of_mem _ hx)
    · rintro (hx | hx)
      · exact Or.inl (mem_push.mpr (Or.inr hx))
      · rcases List.mem_cons.mp hx with rfl | hx
        · exact Or.inl (mem_push.mpr (Or.inl rfl))
        · exact Or.inr hx

theorem foldl_push_sorted :
    ∀ {l acc : List PathStep}, QueueSorted acc →
      QueueSorted (l.foldl PathQueue.push acc) := by
  intro l
  induction l with
  | nil => exact fun h => h
  | cons a t ih =>
    intro acc h
    rw [List.foldl_cons]
    exact ih (push_sorted h)

theorem foldl_push_nodup :
    ∀ {l acc : List PathStep}, acc.Nodup →
      (l.foldl PathQueue.push acc).Nodup := by
  intro l
  induction l with
  | nil => exact fun h => h
  | cons a t ih =>
    intro acc h
    rw [List.foldl_cons]
    exact ih (push_nodup h)

theorem loopInv_init {b : Board} {start goal : Nat × Nat} :
    LoopInv b start goal
      ((get_start_steps start b.constraints).foldl PathQueue.push []) [] := by
  refine ⟨foldl_push_sorted List.Pairwise.nil, foldl_push_nodup List.nodup_nil,
    ?_, ?_, ?_, ?_⟩
  · intro p hp
    rcases mem_foldl_push.mp hp with h | h
    · exact absurd h (List.not_mem_nil p)
    · rcases mem_get_start_steps.mp h with ⟨d, rfl⟩
      exact SeedReach.seed (mem_startStates.mpr ⟨d, rfl⟩)
  · intro s hs
    exact absurd hs (List.not_mem_nil s)
  · intro p hp
    exact Or.inr (mem_foldl_push.mpr (Or.inr hp))
  · intro u hu
    exact absurd hu (List.not_mem_nil u)

theorem sizeInv_init {b : Board} {start : Nat × Nat} :
    SizeInv b start
      ((get_start_steps start b.constraints).foldl PathQueue.push []) [] := by
  constructor
  intro p hp
  rcases mem_foldl_push.mp hp with h | h
  · exact absurd h (List.not_mem_nil p)
  · rcases mem_get_start_steps.mp h with ⟨d, rfl⟩
    exact ⟨_, SChain.seed (mem_startStates.mpr ⟨d, rfl⟩)⟩

/-! Assembly: find_path terminates and returns the least goal cost. -/

theorem find_path_correct {b : Board} {start goal : Nat × Nat}
    (h1 : start.1 < b.nb_rows) (h2 : start.2 < b.nb_cols)
    (hpath : ∃ d, d ∈ goalCosts b start goal) :
    ∃ c : Nat, IsLeast (goalCosts b start goal) c ∧
      ∃ fuel : Nat, ∀ f : Nat, fuel ≤ f →
        find_path f b start goal = .found c := by
  have hterm : find_path_loop b goal
      (searchMeasure b
        ((get_start_steps start b.constraints).foldl PathQueue.push []) [] + 1)
      ((get_start_steps start b.constraints).foldl PathQueue.push []) [] ≠
      .outOfFuel :=
    find_path_loop_terminates h1 h2 _ (le_refl _) loopInv_init sizeInv_init
  have hnp : find_path_loop b goal
      (searchMeasure b
        ((get_start_steps start b.constraints).foldl PathQueue.push []) [] + 1)
      ((get_start_steps start b.constraints).foldl PathQueue.push []) [] ≠
      .noPath :=
    find_path_loop_ne_noPath loopInv_init hpath
  cases hres : find_path_loop b goal
      (searchMeasure b
        ((get_start_steps start b.constraints).foldl PathQueue.push []) [] + 1)
      ((get_start_steps start b.constraints).foldl PathQueue.push []) [] with
  | found c =>
    refine ⟨c, find_path_loop_found_isLeast loopInv_init hres,
      searchMeasure b
        ((get_start_steps start b.constraints).foldl PathQueue.push []) [] + 1,
      fun f hf => ?_⟩
    show find_path_loop b goal f
      ((get_start_steps start b.constraints).foldl PathQueue.push []) [] =
      .found c
    rw [find_path_loop_fuel_mono (by rw [hres]; intro hc; cases hc) hf, hres]
  | noPath => exact absurd hres hnp
  | outOfFuel => exact absurd hres hterm

/-! Claim C2 (amended): behaviour on every unreachable instance. -/

/-- C2 amended: for every board, source cell in bounds, and target such
that no legal sequence of transitions connects any initial seeding state
to an acceptable goal state, the search terminates - it does not loop
forever: from some fuel on the result is stable - but it signals
unreachability by panicking in PathQueue::pop on the exhausted queue
(the Rust expect("No path exists!"), embedded as noPath) rather than by
returning a distinguished non-panicking result value. -/
theorem find_path_unreachable_noPath (b : Board) (start goal : Nat × Nat)
    (hs1 : start.1 < b.nb_rows) (hs2 : start.2 < b.nb_cols)
    (hunreach : ¬ ∃ d, d ∈ goalCosts b start goal) :
    ∃ fuel : Nat, ∀ f : Nat, fuel ≤ f →
      find_path f b start goal = .noPath := by
  have hterm : find_path_loop b goal
      (searchMeasure b
        ((get_start_steps start b.constraints).foldl PathQueue.push []) [] + 1)
      ((get_start_steps start b.constraints).foldl PathQueue.push []) [] ≠
      .outOfFuel :=
    find_path_loop_terminates hs1 hs2 _ (le_refl _) loopInv_init sizeInv_init
  cases hres : find_path_loop b goal
      (searchMeasure b
        ((get_start_steps start b.constraints).foldl PathQueue.push []) [] + 1)
      ((get_start_steps start b.constraints).foldl PathQueue.push []) [] with
  | found c =>
    exact absurd ⟨c, (find_path_loop_found_isLeast loopInv_init hres).1⟩
      hunreach
  | noPath =>
    refine ⟨searchMeasure b
      ((get_start_steps start b.constraints).foldl PathQueue.push []) [] + 1,
      fun f hf => ?_⟩
    show find_path_loop b goal f
      ((get_start_steps start b.constraints).foldl PathQueue.push []) [] =
      .noPath
    rw [find_path_loop_fuel_mono (by rw [hres]; intro hc; cases hc) hf, hres]
  | outOfFuel => exact absurd hres hterm

/-- Witness for the amended C2: the 1-by-5 corridor with the clumsy
constraints and target (0, 2).  Its unreachability is itself certified
by the progress lemma: were an acceptable goal state reachable, the loop
could not return noPath, yet it evaluably does. -/
theorem find_path_unreachable_noPath_witness :
    (corridorBoard.nb_rows > 0 ∧ corridorBoard.nb_cols > 0 ∧
      ¬ ∃ d, d ∈ goalCosts corridorBoard (0, 0) (0, 2)) ∧
    ∃ fuel : Nat, ∀ f : Nat, fuel ≤ f →
      find_path f corridorBoard (0, 0) (0, 2) = .noPath := by
  have hunreach : ¬ ∃ d, d ∈ goalCosts corridorBoard (0, 0) (0, 2) :=
    fun hpath => find_path_loop_ne_noPath loopInv_init hpath
      (show find_path_loop corridorBoard (0, 2) 9
        ((get_start_steps (0, 0) corridorBoard.constraints).foldl
          PathQueue.push []) [] = .noPath by decide)
  exact ⟨⟨by decide, by decide, hunreach⟩,
    find_path_unreachable_noPath corridorBoard (0, 0) (0, 2)
      (by decide) (by decide) hunreach⟩

/-! Claim C1: find_path computes the minimum accumulated cost. -/

/-- C1: for every board built from a non-empty rectangular matrix of
non-negative tile costs with valid constraints (min_straight_line ≤
max_straight_line, max_straight_line ≥ 1), and every source and target
cell for which some legal transition sequence reaches an acceptable goal
state, find_path returns - for all sufficiently large fuel - the minimum,
over all sequences of legal transitions from an initial seeding state at
the source to an acceptable goal state at the target, of the accumulated
sum of entered-cell costs (SeedReach counts each entered cell's cost
exactly once and never the source cell's own entry cost). -/
theorem find_path_returns_min_cost (b : Board) (start goal : Nat × Nat)
    (_hrows : b.nb_rows = b.tiles.length)
    (_hrect : ∀ row ∈ b.tiles, row.length = b.nb_cols)
    (_hnb1 : 0 < b.nb_rows) (_hnb2 : 0 < b.nb_cols)
    (_hvalid : b.constraints.min_straight_line ≤ b.constraints.max_straight_line)
    (_hmax : 1 ≤ b.constraints.max_straight_line)
    (hs1 : start.1 < b.nb_rows) (hs2 : start.2 < b.nb_cols)
    (_hg1 : goal.1 < b.nb_rows) (_hg2 : goal.2 < b.nb_cols)
    (hpath : ∃ d, d ∈ goalCosts b start goal) :
    ∃ c : Nat, IsLeast (goalCosts b start goal) c ∧
      ∃ fuel : Nat, ∀ f : Nat, fuel ≤ f →
        find_path f b start goal = .found c :=
  find_path_correct hs1 hs2 hpath

/-- Witness for C1 on the tiny board: a legal two-step path to (1, 1)
exists, and find_path stabilises on the least goal cost. -/
theorem find_path_returns_min_cost_witness :
    (∃ d, d ∈ goalCosts tinyBoard (0, 0) (1, 1)) ∧
    ∃ c : Nat, IsLeast (goalCosts tinyBoard (0, 0) (1, 1)) c ∧
      ∃ fuel : Nat, ∀ f : Nat, fuel ≤ f →
        find_path f tinyBoard (0, 0) (1, 1) = .found c := by
  have r1 : SeedReach tinyBoard (0, 0) ⟨0, 0, Direction.right, 3, 0⟩ 0 :=
    SeedReach.seed (by decide)
  have r2 : SeedReach tinyBoard (0, 0) ⟨0, 1, Direction.right, 2, 0⟩ (0 + 1) :=
    SeedReach.step r1 (by decide)
  have r3 : SeedReach tinyBoard (0, 0) ⟨1, 1, Direction.down, 2, 0⟩
      (0 + 1 + 1) :=
    SeedReach.step r2 (by decide)
  have hpath : ∃ d, d ∈ goalCosts tinyBoard (0, 0) (1, 1) :=
    ⟨0 + 1 + 1, ⟨1, 1, Direction.down, 2, 0⟩, r3, by decide⟩
  exact ⟨hpath, find_path_returns_min_cost tinyBoard (0, 0) (1, 1) rfl
    (by decide) (by decide) (by decide) (by decide) (by decide)
    (by decide) (by decide) (by decide) (by decide) hpath⟩

/-! Claim C9: raising a tile cost cannot lower the minimum. -/

theorem get_neighbour_tile_congr {b b' : Board}
    (hr : b'.nb_rows = b.nb_rows) (hc : b'.nb_cols = b.nb_cols)
    (r c : Nat) (d : Direction) :
    b'.get_neighbour_tile r c d = b.get_neighbour_tile r c d := by
  unfold Board.get_neighbour_tile
  cases d
  · rfl
  · rw [hr]
  · rfl
  · rw [hc]

theorem get_neighbours_states_eq {b b' : Board}
    (hr : b'.nb_rows = b.nb_rows) (hc : b'.nb_cols = b.nb_cols)
    (hcon : b'.constraints = b.constraints) (s : State) :
    b.get_neighbours s =
      (b'.get_neighbours s).map fun p => (p.1, b.tileAt p.1.row p.1.col) := by
  unfold Board.get_neighbours
  rw [List.map_append]
  congr 1
  · by_cases hcan : s.can_turn_in = 0
    · rw [if_pos hcan, if_pos hcan, List.map_filterMap]
      apply List.filterMap_congr
      intro d _
      rw [hcon]
      unfold Board.add_neighbour_tile
      rw [get_neighbour_tile_congr hr hc]
      cases b.get_neighbour_tile s.row s.col d with
      | none => rfl
      | some rc =>
        cases rc
        rfl
    · rw [if_neg hcan, if_neg hcan]
      rfl
  · by_cases hm : s.must_turn_in > 0
    · rw [if_pos hm, if_pos hm]
      unfold Board.add_neighbour_tile
      rw [get_neighbour_tile_congr hr hc]
      cases b.get_neighbour_tile s.row s.col s.facing with
      | none => rfl
      | some rc =>
        cases rc
        rfl
    · rw [if_neg hm, if_neg hm]
      rfl

theorem get_neighbours_cost_eq_tileAt {b : Board} {s t : State} {w : Nat}
    (h : (t, w) ∈ b.get_neighbours s) : w = b.tileAt t.row t.col := by
  rcases mem_get_neighbours.mp h with ⟨-, hm⟩ | ⟨-, hm⟩
  · exact (turnCandidates_fields hm).2.2.2
  · exact (straightCandidate_fields hm).2.2.2

theorem SeedReach_universe {b : Board} {start : Nat × Nat}
    (h1 : start.1 < b.nb_rows) (h2 : start.2 < b.nb_cols) :
    ∀ {s : State} {c : Nat}, SeedReach b start s c → InUniverse b s := by
  intro s c h
  induction h with
  | seed hs => exact startStates_universe h1 h2 hs
  | step _ hstep ih => exact get_neighbours_universe ih hstep

theorem SeedReach_transfer {b b' : Board} {start : Nat × Nat}
    (hr : b'.nb_rows = b.nb_rows) (hc : b'.nb_cols = b.nb_cols)
    (hcon : b'.constraints = b.constraints) :
    ∀ {g : State} {d' : Nat}, SeedReach b' start g d' →
      ∃ d : Nat, SeedReach b start g d := by
  intro g d' h
  induction h with
  | seed hs =>
    refine ⟨0, SeedReach.seed ?_⟩
    rw [hcon] at hs
    exact hs
  | @step s t c w _ hstep ih =>
    rcases ih with ⟨d, hreach⟩
    have hmem : (t, b.tileAt t.row t.col) ∈ b.get_neighbours s := by
      rw [get_neighbours_states_eq hr hc hcon]
      exact List.mem_map.mpr ⟨(t, w), hstep, rfl⟩
    exact ⟨d + b.tileAt t.row t.col, SeedReach.step hreach hmem⟩

theorem SeedReach_mono_tiles {b b' : Board} {start : Nat × Nat}
    (hr : b'.nb_rows = b.nb_rows) (hc : b'.nb_cols = b.nb_cols)
    (hcon : b'.constraints = b.constraints)
    (h1 : start.1 < b.nb_rows) (h2 : start.2 < b.nb_cols)
    (hle : ∀ r < b.nb_rows, ∀ c < b.nb_cols, b.tileAt r c ≤ b'.tileAt r c) :
    ∀ {g : State} {d' : Nat}, SeedReach b' start g d' →
      ∃ d : Nat, d ≤ d' ∧ SeedReach b start g d := by
  intro g d' h
  induction h with
  | seed hs =>
    refine ⟨0, le_refl 0, SeedReach.seed ?_⟩
    rw [hcon] at hs
    exact hs
  | @step s t c w hprev hstep ih =>
    rcases ih with ⟨d, hd, hreach⟩
    have hU : InUniverse b' t :=
      SeedReach_universe (by omega) (by omega) (SeedReach.step hprev hstep)
    obtain ⟨hU1, hU2, -, -⟩ := hU
    have hmem : (t, b.tileAt t.row t.col) ∈ b.get_neighbours s := by
      rw [get_neighbours_states_eq hr hc hcon]
      exact List.mem_map.mpr ⟨(t, w), hstep, rfl⟩
    refine ⟨d + b.tileAt t.row t.col, ?_, SeedReach.step hreach hmem⟩
    have hw : w = b'.tileAt t.row t.col := get_neighbours_cost_eq_tileAt hstep
    have hcmp := hle t.row (by omega) t.col (by omega)
    omega

/-- C9: for boards equal in dimensions and constraints, with the source
in bounds and a reachable acceptable goal state, raising the cost of one
tile (every other in-bounds tile unchanged) can only increase or leave
unchanged the minimum cost returned by find_path: both searches settle
on their least goal costs m and m', and m ≤ m'. -/
theorem find_path_tile_monotone (b b' : Board) (start goal pos : Nat × Nat)
    (hr : b'.nb_rows = b.nb_rows) (hc : b'.nb_cols = b.nb_cols)
    (hcon : b'.constraints = b.constraints)
    (hs1 : start.1 < b.nb_rows) (hs2 : start.2 < b.nb_cols)
    (hsame : ∀ r < b.nb_rows, ∀ c < b.nb_cols,
      (r, c) ≠ pos → b'.tileAt r c = b.tileAt r c)
    (hge : b.tileAt pos.1 pos.2 ≤ b'.tileAt pos.1 pos.2)
    (hpath : ∃ d, d ∈ goalCosts b start goal) :
    ∃ m m' : Nat,
      IsLeast (goalCosts b start goal) m ∧
      IsLeast (goalCosts b' start goal) m' ∧
      (∃ fuel : Nat, ∀ f : Nat, fuel ≤ f →
        find_path f b start goal = .found m) ∧
      (∃ fuel : Nat, ∀ f : Nat, fuel ≤ f →
        find_path f b' start goal = .found m') ∧
      m ≤ m' := by
  obtain ⟨p1, p2⟩ := pos
  have hle : ∀ r < b.nb_rows, ∀ c < b.nb_cols,
      b.tileAt r c ≤ b'.tileAt r c := by
    intro r hrr c hcc
    by_cases hp : (r, c) = (p1, p2)
    · injection hp with hp1 hp2
      subst hp1
      subst hp2
      exact hge
    · rw [hsame r hrr c hcc hp]
  have hpath' : ∃ d, d ∈ goalCosts b' start goal := by
    rcases hpath with ⟨d, g, hgreach, hggoal⟩
    rcases SeedReach_transfer hr.symm hc.symm hcon.symm hgreach with ⟨d', hreach'⟩
    exact ⟨d', g, hreach', hggoal⟩
  rcases find_path_correct hs1 hs2 hpath with ⟨m, hm, hfuel⟩
  rcases find_path_correct (by omega) (by omega) hpath' with ⟨m', hm', hfuel'⟩
  refine ⟨m, m', hm, hm', hfuel, hfuel', ?_⟩
  rcases hm'.1 with ⟨g, hgreach', hggoal⟩
  rcases SeedReach_mono_tiles hr hc hcon hs1 hs2 hle hgreach' with
    ⟨d, hd, hreach⟩
  exact (hm.2 ⟨g, hreach, hggoal⟩).trans hd

/-- Witness for C9: raising the (1, 1) tile of the tiny board from 1 to
5. -/
theorem find_path_tile_monotone_witness :
    (∃ d, d ∈ goalCosts tinyBoard (0, 0) (1, 1)) ∧
    ∃ m m' : Nat,
      IsLeast (goalCosts tinyBoard (0, 0) (1, 1)) m ∧
      IsLeast (goalCosts tinyBoardRaised (0, 0) (1, 1)) m' ∧
      (∃ fuel : Nat, ∀ f : Nat, fuel ≤ f →
        find_path f tinyBoard (0, 0) (1, 1) = .found m) ∧
      (∃ fuel : Nat, ∀ f : Nat, fuel ≤ f →
        find_path f tinyBoardRaised (0, 0) (1, 1) = .found m') ∧
      m ≤ m' := by
  have r1 : SeedReach tinyBoard (0, 0) ⟨0, 0, Direction.right, 3, 0⟩ 0 :=
    SeedReach.seed (by decide)
  have r2 : SeedReach tinyBoard (0, 0) ⟨0, 1, Direction.right, 2, 0⟩ (0 + 1) :=
    SeedReach.step r1 (by decide)
  have r3 : SeedReach tinyBoard (0, 0) ⟨1, 1, Direction.down, 2, 0⟩
      (0 + 1 + 1) :=
    SeedReach.step r2 (by decide)
  have hpath : ∃ d, d ∈ goalCosts tinyBoard (0, 0) (1, 1) :=
    ⟨0 + 1 + 1, ⟨1, 1, Direction.down, 2, 0⟩, r3, by decide⟩
  exact ⟨hpath, find_path_tile_monotone tinyBoard tinyBoardRaised
    (0, 0) (1, 1) (1, 1) rfl rfl rfl (by decide) (by decide)
    (by decide) (by decide) hpath⟩

end Day17
